import Mathlib

/-!
Formal model of the CDS valuation core of the `derivatives_pricing`
repository: the hazard-rate curve (`src/new/hazard/hazard_curve.py`),
the zero/discount curve (`src/new/discount_engine/discount.py`), the
cashflow schedule generator (`src/new/cashflow/utils.py`) and the
premium-leg engine (`src/new/pricing/cds.py`), together with the legacy
hazard curve (`src/old/credit/cds_final/hazard_curve.py`).

Dates are modelled as integers (day numbers), so that subtraction gives
the `.days` attribute of a Python `timedelta`; exact rational arithmetic
stands in for IEEE floating point, and `Real.exp` and real powers stand
in for `math.exp` and `**`.  File reading and CSV parsing are outside
the model: loaders take the already-parsed `(date, rate)` rows.
-/

namespace DerivPricing

/-- Calendar dates as day numbers: `d2 - d1` is Python's `(d2 - d1).days`. -/
abbrev Date := ℤ

namespace Hazard

/-- `year_fraction` of `src/new/hazard/hazard_curve.py` (ACT/365F):
`(end - start).days / 365.0`. -/
def year_fraction (start finish : Date) : ℚ := ((finish - start : ℤ) : ℚ) / 365

/-- Knot state of `HazardRateCurve`: the valuation date plus the parallel
arrays `_times` (year fractions) and `_rates` (instantaneous hazards). -/
structure HazardRateCurve where
  valuation_date : Date
  times : List ℚ
  rates : List ℚ

/-- The `while hi - lo > 1` bisection loop inside `_interp_lambda`. -/
def searchLoop (times : List ℚ) (t : ℚ) (lo hi : ℕ) : ℕ × ℕ :=
  if h : 1 < hi - lo then
    if times.getD ((lo + hi) / 2) 0 ≤ t then searchLoop times t ((lo + hi) / 2) hi
    else searchLoop times t lo ((lo + hi) / 2)
  else (lo, hi)
termination_by hi - lo
decreasing_by
  all_goals omega

/-- `_interp_lambda`: linear interpolation with flat extrapolation. -/
def interp_lambda (c : HazardRateCurve) (t : ℚ) : ℚ :=
  if t ≤ c.times.headD 0 then c.rates.headD 0
  else if c.times.getLastD 0 ≤ t then c.rates.getLastD 0
  else
    let p := searchLoop c.times t 0 (c.times.length - 1)
    let t0 := c.times.getD p.1 0
    let t1 := c.times.getD p.2 0
    let r0 := c.rates.getD p.1 0
    let r1 := c.rates.getD p.2 0
    r0 + (t - t0) / (t1 - t0) * (r1 - r0)

/-- The trapezoid accumulation loop of `survival_probability`. -/
def trapSum (f : ℚ → ℚ) : List ℚ → ℚ
  | a :: b :: rest => 1 / 2 * (f a + f b) * (b - a) + trapSum f (b :: rest)
  | _ => 0

/-- The integration grid `[0.0] ++ [knots strictly inside (0, T)] ++ [T]`,
sorted, as built by `survival_probability`. -/
def survGrid (c : HazardRateCurve) (T : ℚ) : List ℚ :=
  ((0 :: (c.times.drop 1).filter (fun t => decide (0 < t ∧ t < T))) ++ [T]).mergeSort
    (fun a b => decide (a ≤ b))

/-- The trapezoidal integral of `_interp_lambda` over the grid, i.e. the
`integral` accumulator of `survival_probability`. -/
def survIntegral (c : HazardRateCurve) (T : ℚ) : ℚ :=
  trapSum (interp_lambda c) (survGrid c T)

/-- `survival_probability(end_date)`: return `1.0` when the year fraction
is `≤ 0`, otherwise `exp(-integral)`. -/
noncomputable def survival_probability (c : HazardRateCurve) (end_date : Date) : ℝ :=
  let T := year_fraction c.valuation_date end_date
  if T ≤ 0 then 1 else Real.exp (-((survIntegral c T : ℚ) : ℝ))

/-- Raised when no data row survives the valuation-date filter
(`ValueError` in the code, `EmptyCurveError` in the specification). -/
inductive CurveError
  | EmptyCurveError
deriving DecidableEq

/-- Body of the knot-building `for` loop in `load_from_csv`: skip
non-positive times, merge a time within `1e-12` of the previous knot by
overwriting its rate, otherwise append a new knot. -/
def loadStep (valuation_date : Date) (acc : List ℚ × List ℚ) (dr : Date × ℚ) :
    List ℚ × List ℚ :=
  let t := year_fraction valuation_date dr.1
  if t ≤ 0 then acc
  else if |t - acc.1.getLastD 0| < 1 / 10 ^ 12 then (acc.1, acc.2.dropLast ++ [dr.2])
  else (acc.1 ++ [t], acc.2 ++ [dr.2])

/-- `load_from_csv`, modelled on the already-parsed `(date, rate)` rows of
the file: keep rows strictly after the valuation date, sort by date
(Python's stable `sort`), start from the synthetic `t = 0` knot carrying
the first surviving rate, run the knot-building loop, and pad degenerate
one-knot curves with a knot at `1e-8`. -/
def load_from_csv (valuation_date : Date) (rows : List (Date × ℚ)) :
    Except CurveError HazardRateCurve :=
  let kept := rows.filter (fun r => decide (valuation_date < r.1))
  if kept = [] then .error .EmptyCurveError
  else
    let sorted := kept.mergeSort (fun a b => decide (a.1 ≤ b.1))
    let first_rate := (sorted.headD (0, 0)).2
    let tr := sorted.foldl (loadStep valuation_date) ([0], [first_rate])
    let tr :=
      if tr.1.length < 2 then (tr.1 ++ [1 / 10 ^ 8], tr.2 ++ [tr.2.headD 0])
      else tr
    .ok ⟨valuation_date, tr.1, tr.2⟩

/-- The knot-state invariant established by `load_from_csv`: strictly
increasing times starting at `0`, at least two knots, and parallel arrays
of equal length. -/
def WF (c : HazardRateCurve) : Prop :=
  c.times.Chain' (· < ·) ∧ c.times.headD 0 = 0 ∧ 2 ≤ c.times.length ∧
    c.rates.length = c.times.length

instance (c : HazardRateCurve) : Decidable (WF c) := by
  unfold WF; infer_instance

/-- Collapse runs of rows with equal dates, keeping the last row of each
run (reference function for the `1e-12` duplicate-time merge). -/
def dedupKeepLast : List (Date × ℚ) → List (Date × ℚ)
  | [] => []
  | [x] => [x]
  | x :: y :: rest =>
    if x.1 = y.1 then dedupKeepLast (y :: rest) else x :: dedupKeepLast (y :: rest)

end Hazard

namespace CdsFinal

/-- `year_fraction` of `src/old/credit/cds_final/hazard_curve.py`. -/
def year_fraction (start finish : Date) : ℚ := ((finish - start : ℤ) : ℚ) / 365

/-- Knot state of the legacy `HazardRateCurve` of
`src/old/credit/cds_final/hazard_curve.py`. -/
structure HazardRateCurve where
  valuation_date : Date
  times : List ℚ
  rates : List ℚ

/-- The `while hi - lo > 1` bisection loop of the legacy `_interp_lambda`. -/
def searchLoop (times : List ℚ) (t : ℚ) (lo hi : ℕ) : ℕ × ℕ :=
  if h : 1 < hi - lo then
    if times.getD ((lo + hi) / 2) 0 ≤ t then searchLoop times t ((lo + hi) / 2) hi
    else searchLoop times t lo ((lo + hi) / 2)
  else (lo, hi)
termination_by hi - lo
decreasing_by
  all_goals omega

/-- The legacy `_interp_lambda`. -/
def interp_lambda (c : HazardRateCurve) (t : ℚ) : ℚ :=
  if t ≤ c.times.headD 0 then c.rates.headD 0
  else if c.times.getLastD 0 ≤ t then c.rates.getLastD 0
  else
    let p := searchLoop c.times t 0 (c.times.length - 1)
    let t0 := c.times.getD p.1 0
    let t1 := c.times.getD p.2 0
    let r0 := c.rates.getD p.1 0
    let r1 := c.rates.getD p.2 0
    r0 + (t - t0) / (t1 - t0) * (r1 - r0)

/-- The trapezoid accumulation loop of the legacy `survival_probability`. -/
def trapSum (f : ℚ → ℚ) : List ℚ → ℚ
  | a :: b :: rest => 1 / 2 * (f a + f b) * (b - a) + trapSum f (b :: rest)
  | _ => 0

/-- The legacy integration grid. -/
def survGrid (c : HazardRateCurve) (T : ℚ) : List ℚ :=
  ((0 :: (c.times.drop 1).filter (fun t => decide (0 < t ∧ t < T))) ++ [T]).mergeSort
    (fun a b => decide (a ≤ b))

/-- The legacy trapezoidal integral. -/
def survIntegral (c : HazardRateCurve) (T : ℚ) : ℚ :=
  trapSum (interp_lambda c) (survGrid c T)

/-- The legacy `survival_probability`. -/
noncomputable def survival_probability (c : HazardRateCurve) (end_date : Date) : ℝ :=
  let T := year_fraction c.valuation_date end_date
  if T ≤ 0 then 1 else Real.exp (-((survIntegral c T : ℚ) : ℝ))

end CdsFinal

namespace Discount

/-- `year_fraction` of `src/new/discount_engine/discount.py` (ACT/365F). -/
def year_fraction (start finish : Date) : ℚ := ((finish - start : ℤ) : ℚ) / 365

/-- `ZeroCurve`: valuation date plus the `_pillars` date-to-NACA-rate map,
modelled as an association list. -/
structure ZeroCurve where
  valuation_date : Date
  pillars : List (Date × ℚ)

/-- Error taxonomy of the specification: `MissingPillarError` is the
`KeyError` raised by `discount_factor`, `InvalidIntervalError` the
`ValueError` raised by the forward-rate queries. -/
inductive DiscountError
  | MissingPillarError
  | InvalidIntervalError
deriving DecidableEq

/-- Dictionary membership/lookup `self._pillars[d]`. -/
def lookupRate (c : ZeroCurve) (d : Date) : Option ℚ := c.pillars.lookup d

/-- `D(t) = (1 + r_NA)^(-t)` at the pillar date `d` quoting rate `r`. -/
noncomputable def Dfact (c : ZeroCurve) (d : Date) (r : ℚ) : ℝ :=
  (1 + (r : ℝ)) ^ (-((year_fraction c.valuation_date d : ℚ) : ℝ))

/-- `discount_factor(d_from, d_to)`: `1.0` on equal dates, otherwise both
dates must be pillars and the result is `D(d_to) / D(d_from)`. -/
noncomputable def discount_factor (c : ZeroCurve) (d_from d_to : Date) :
    Except DiscountError ℝ :=
  if d_from = d_to then .ok 1
  else
    match lookupRate c d_from, lookupRate c d_to with
    | some rA, some rB => .ok (Dfact c d_to rB / Dfact c d_from rA)
    | _, _ => .error .MissingPillarError

/-- `forward_rate_cont(d_start, d_end) = -ln(DF) / (t1 - t0)`. -/
noncomputable def forward_rate_cont (c : ZeroCurve) (d_start d_end : Date) :
    Except DiscountError ℝ :=
  match lookupRate c d_start, lookupRate c d_end with
  | some _, some _ =>
    let t0 := year_fraction c.valuation_date d_start
    let t1 := year_fraction c.valuation_date d_end
    if t1 ≤ t0 then .error .InvalidIntervalError
    else
      (discount_factor c d_start d_end).bind fun df =>
        .ok (-Real.log df / (((t1 - t0 : ℚ) : ℝ)))
  | _, _ => .error .MissingPillarError

/-- `forward_rate_naca(d_start, d_end) = DF^(-1/delta) - 1`. -/
noncomputable def forward_rate_naca (c : ZeroCurve) (d_start d_end : Date) :
    Except DiscountError ℝ :=
  match lookupRate c d_start, lookupRate c d_end with
  | some _, some _ =>
    let t0 := year_fraction c.valuation_date d_start
    let t1 := year_fraction c.valuation_date d_end
    if t1 ≤ t0 then .error .InvalidIntervalError
    else
      (discount_factor c d_start d_end).bind fun df =>
        .ok (df ^ (-1 / (((t1 - t0 : ℚ) : ℝ))) - 1)
  | _, _ => .error .MissingPillarError

end Discount

namespace Cashflow

/-- `CDSCashflowSchedule.generate` of `src/new/cashflow/utils.py`, with
the QuantLib collaborators abstracted per the specification's
BusinessCalendar contract: `boundaries` is the unadjusted schedule
returned by `ql.Schedule(start, end, tenor, calendar, Unadjusted,
Unadjusted, Forward, False)` and `adjust` is
`calendar.adjust(·, payment_convention)`. -/
def generate (boundaries : List Date) (adjust : Date → Date) :
    List (Date × Date × ℚ) :=
  if boundaries.length < 2 then []
  else
    let pay_dates := (boundaries.drop 1).map adjust
    let starts := boundaries.headD 0 :: pay_dates.dropLast
    let last_idx := pay_dates.length - 1
    (starts.zip pay_dates).enum.map fun ip =>
      let days := ip.2.2 - ip.2.1 + (if ip.1 = last_idx then 1 else 0)
      (ip.2.1, ip.2.2, ((days : ℤ) : ℚ) / 365)

end Cashflow

namespace Pricing

/-- The premium-leg DataFrame built by `build_cds_premium_df` of
`src/new/pricing/cds.py`, modelled as its columns. -/
structure PremiumDF where
  accrual_start : List Date
  pay_date : List Date
  year_fraction : List ℚ
  survival : List ℝ
  discount_factor : List ℝ
  cashflow : List ℝ
  accrual_df : List ℝ
  accrual_prob_term : List ℝ
  pv : List ℝ

/-- The empty DataFrame (`pd.DataFrame(columns=cols)`). -/
def emptyDF : PremiumDF := ⟨[], [], [], [], [], [], [], [], []⟩

/-- Python's `round(days / 2)`: half-integers round to the nearest even
integer. -/
def pyRound2 (days : ℤ) : ℤ :=
  if days % 2 = 0 then days / 2
  else
    let m := (days - 1) / 2
    if m % 2 = 0 then m else m + 1

/-- `mid_date = start + timedelta(days=round(days / 2))`. -/
def midDate (start pay : Date) : Date := start + pyRound2 (pay - start)

/-- The `accrual_prob_term` loop: `0.5 * (prev_s - s_curr)` with `prev_s`
carried left to right, starting at `1.0`. -/
noncomputable def accrualTerms (prev : ℝ) : List ℝ → List ℝ
  | [] => []
  | s :: rest => 1 / 2 * (prev - s) :: accrualTerms s rest

/-- The vectorised `pv` column:
`survival * cashflow * discount_factor + accrual_prob_term * accrual_df * cashflow`. -/
noncomputable def pvCol : List ℝ → List ℝ → List ℝ → List ℝ → List ℝ → List ℝ
  | s :: ss, cf :: cfs, d :: ds, a :: tas, ad :: ads =>
    (s * cf * d + a * ad * cf) :: pvCol ss cfs ds tas ads
  | _, _, _, _, _ => []

/-- `build_cds_premium_df(schedule, hazard_curve, discount_curve,
val_date, nominal, rate)`.  The curve arguments are duck-typed in the
Python code, so they are modelled as the functions actually called:
`survF` is `hazard_curve.survival_probability` and `dfF` is
`discount_curve.discount_factor`. -/
noncomputable def build_cds_premium_df (schedule : List (Date × Date × ℚ))
    (survF : Date → ℝ) (dfF : Date → Date → ℝ) (val_date : Date)
    (nominal rate : ℝ) : PremiumDF :=
  if schedule = [] then emptyDF
  else
    let kept := schedule.filter fun r => decide (val_date < r.2.1)
    if kept = [] then emptyDF
    else
      let denom := max (survF (val_date + 1)) (1 / 10 ^ 16)
      let starts := kept.map (·.1)
      let pays := kept.map (·.2.1)
      let yfs := kept.map (·.2.2)
      let survivals := pays.map fun pay => survF (pay - 1) / denom
      let dfs_pay := pays.map fun pay => dfF val_date pay
      let cashflows := yfs.map fun yf : ℚ => nominal * rate * (yf : ℝ)
      let mid_dfs := ((val_date :: starts.drop 1).zip pays).map fun sp =>
        dfF val_date (midDate sp.1 sp.2)
      let apts := accrualTerms 1 survivals
      let pvs := pvCol survivals cashflows dfs_pay apts mid_dfs
      ⟨starts, pays, yfs, survivals, dfs_pay, cashflows, mid_dfs, apts, pvs⟩

end Pricing

/-! ## Hazard-curve lemmas (towards claims C1 and C8) -/

namespace Hazard

/-- The bisection loop, started on a bracketing interval, returns an
adjacent bracketing pair inside the original interval. -/
theorem searchLoop_spec (times : List ℚ) (t : ℚ) :
    ∀ n lo hi, hi - lo ≤ n → lo < hi → times.getD lo 0 ≤ t →
      t < times.getD hi 0 →
      (searchLoop times t lo hi).2 = (searchLoop times t lo hi).1 + 1 ∧
      lo ≤ (searchLoop times t lo hi).1 ∧
      (searchLoop times t lo hi).2 ≤ hi ∧
      times.getD (searchLoop times t lo hi).1 0 ≤ t ∧
      t < times.getD (searchLoop times t lo hi).2 0 := by
  intro n
  induction n with
  | zero =>
    intro lo hi h hlt h1 h2
    exact absurd hlt (by omega)
  | succ n ih =>
    intro lo hi h hlt h1 h2
    unfold searchLoop
    by_cases h3 : 1 < hi - lo
    · rw [dif_pos h3]
      by_cases h4 : times.getD ((lo + hi) / 2) 0 ≤ t
      · rw [if_pos h4]
        have hrec := ih ((lo + hi) / 2) hi (by omega) (by omega) h4 h2
        exact ⟨hrec.1, le_trans (by omega) hrec.2.1, hrec.2.2.1, hrec.2.2.2.1,
          hrec.2.2.2.2⟩
      · rw [if_neg h4]
        have hrec := ih lo ((lo + hi) / 2) (by omega) (by omega) h1 (lt_of_not_le h4)
        exact ⟨hrec.1, hrec.2.1, le_trans hrec.2.2.1 (by omega), hrec.2.2.2.1,
          hrec.2.2.2.2⟩
    · rw [dif_neg h3]
      exact ⟨by omega, le_refl lo, le_refl hi, h1, h2⟩

/-- Strictly sorted knot times are strictly monotone in the index. -/
theorem times_strict_mono (times : List ℚ) (h : times.Chain' (· < ·)) {i j : ℕ}
    (hij : i < j) (hj : j < times.length) : times.getD i 0 < times.getD j 0 := by
  have hp := (List.chain'_iff_pairwise).mp h
  rw [List.getD_eq_getElem _ _ (by omega), List.getD_eq_getElem _ _ hj]
  exact List.pairwise_iff_getElem.mp hp i j (by omega) hj hij

/-- Monotone (non-strict) version of `times_strict_mono`. -/
theorem times_mono (times : List ℚ) (h : times.Chain' (· < ·)) {i j : ℕ}
    (hij : i ≤ j) (hj : j < times.length) : times.getD i 0 ≤ times.getD j 0 := by
  rcases eq_or_lt_of_le hij with rfl | hlt
  · exact le_refl _
  · exact le_of_lt (times_strict_mono times h hlt hj)

/-- `headD 0` is `getD 0 0`. -/
theorem headD_eq_getD (l : List ℚ) : l.headD 0 = l.getD 0 0 := by
  cases l <;> rfl

/-- `getLastD 0` is `getD (length - 1) 0`. -/
theorem getLastD_eq_getD (l : List ℚ) : l.getLastD 0 = l.getD (l.length - 1) 0 := by
  induction l with
  | nil => rfl
  | cons a t ih =>
    cases t with
    | nil => rfl
    | cons b t2 =>
      rw [List.getLastD_eq_getLast?, List.getLast?_cons_cons,
        ← List.getLastD_eq_getLast?, ih]
      simp only [List.length_cons]
      rw [show b :: t2 = (a :: b :: t2).drop 1 from rfl]
      rw [show (a :: b :: t2).drop 1 = b :: t2 from rfl]
      rw [show t2.length + 1 + 1 - 1 = (t2.length + 1 - 1) + 1 by omega,
        List.getD_cons_succ]

/-- On a query at or left of the first knot, `_interp_lambda` returns the
first rate. -/
theorem interp_lambda_left (c : HazardRateCurve) (t : ℚ)
    (h : t ≤ c.times.headD 0) : interp_lambda c t = c.rates.headD 0 := by
  unfold interp_lambda
  rw [if_pos h]

/-- On a query at or right of the last knot of a well-formed curve,
`_interp_lambda` returns the last rate. -/
theorem interp_lambda_right (c : HazardRateCurve) (hch : c.times.Chain' (· < ·))
    (hlen2 : 2 ≤ c.times.length) (t : ℚ)
    (h : c.times.getLastD 0 ≤ t) : interp_lambda c t = c.rates.getLastD 0 := by
  have hlt : c.times.headD 0 < c.times.getLastD 0 := by
    rw [headD_eq_getD, getLastD_eq_getD]
    exact times_strict_mono c.times hch (by omega) (by omega)
  unfold interp_lambda
  rw [if_neg (by push_neg; exact lt_of_lt_of_le hlt h), if_pos h]

/-- `_interp_lambda` agrees with the affine interpolant on every knot
segment of a well-formed curve. -/
theorem interp_lambda_affine (c : HazardRateCurve) (hch : c.times.Chain' (· < ·))
    (hlen2 : 2 ≤ c.times.length) (hlenr : c.rates.length = c.times.length)
    (j : ℕ) (hj : j + 1 < c.times.length) (x : ℚ)
    (hx1 : c.times.getD j 0 ≤ x) (hx2 : x ≤ c.times.getD (j + 1) 0) :
    interp_lambda c x = c.rates.getD j 0 +
      (x - c.times.getD j 0) / (c.times.getD (j + 1) 0 - c.times.getD j 0) *
        (c.rates.getD (j + 1) 0 - c.rates.getD j 0) := by
  have hdj : c.times.getD j 0 < c.times.getD (j + 1) 0 :=
    times_strict_mono c.times hch (by omega) hj
  unfold interp_lambda
  by_cases hA : x ≤ c.times.headD 0
  · rw [if_pos hA]
    have hj0 : j = 0 := by
      by_contra hj0
      have : c.times.getD 0 0 < c.times.getD j 0 :=
        times_strict_mono c.times hch (by omega) (by omega)
      rw [headD_eq_getD] at hA
      exact absurd (le_trans hx1 hA) (not_le.mpr this)
    subst hj0
    have hx0 : x = c.times.getD 0 0 := le_antisymm (headD_eq_getD c.times ▸ hA) hx1
    rw [headD_eq_getD c.rates, hx0, sub_self, zero_div, zero_mul, add_zero]
  · rw [if_neg hA]
    by_cases hB : c.times.getLastD 0 ≤ x
    · rw [if_pos hB]
      rw [getLastD_eq_getD] at hB
      have hjlast : j + 1 = c.times.length - 1 := by
        by_contra hne
        have : c.times.getD (j + 1) 0 < c.times.getD (c.times.length - 1) 0 :=
          times_strict_mono c.times hch (by omega) (by omega)
        exact absurd (le_trans hB hx2) (not_le.mpr this)
      have hxlast : x = c.times.getD (j + 1) 0 :=
        le_antisymm hx2 (hjlast ▸ hB)
      rw [getLastD_eq_getD, hlenr, hjlast, ← hjlast, hxlast,
        div_self (ne_of_gt (sub_pos.mpr hdj))]
      ring
    · rw [if_neg hB]
      push_neg at hA hB
      rw [headD_eq_getD] at hA
      rw [getLastD_eq_getD] at hB
      have hbr := searchLoop_spec c.times x (c.times.length - 1) 0
        (c.times.length - 1) le_rfl (by omega) (le_of_lt hA) hB
      obtain ⟨heq1, _, hle2, hbl, hbr2⟩ := hbr
      set l := (searchLoop c.times x 0 (c.times.length - 1)).1 with hldef
      have hbr2' : x < c.times.getD (l + 1) 0 := by
        rw [← heq1]
        exact hbr2
      have hjl : j ≤ l := by
        by_contra hc
        push_neg at hc
        have : c.times.getD (l + 1) 0 ≤ c.times.getD j 0 :=
          times_mono c.times hch (by omega) (by omega)
        exact absurd (lt_of_lt_of_le hbr2' this) (not_lt.mpr hx1)
      have hlj : l ≤ j + 1 := by
        by_contra hc
        push_neg at hc
        have : c.times.getD (j + 1) 0 < c.times.getD l 0 :=
          times_strict_mono c.times hch (by omega) (by omega)
        exact absurd (lt_of_lt_of_le this hbl) (not_lt.mpr hx2)
      have hpair : searchLoop c.times x 0 (c.times.length - 1) = (l, l + 1) :=
        Prod.ext hldef.symm heq1
      rw [hpair]
      show c.rates.getD l 0 +
          (x - c.times.getD l 0) / (c.times.getD (l + 1) 0 - c.times.getD l 0) *
            (c.rates.getD (l + 1) 0 - c.rates.getD l 0) = _
      rcases eq_or_lt_of_le hjl with rfl | hjlt
      · rfl
      · have hlj1 : l = j + 1 := by omega
        have hxl : x = c.times.getD (j + 1) 0 := le_antisymm hx2 (hlj1 ▸ hbl)
        rw [hlj1, hxl, sub_self, zero_div, zero_mul, add_zero,
          div_self (ne_of_gt (sub_pos.mpr hdj))]
        ring

/-- With non-negative knot rates, `_interp_lambda` is non-negative
everywhere. -/
theorem interp_lambda_nonneg (c : HazardRateCurve) (hch : c.times.Chain' (· < ·))
    (hlen2 : 2 ≤ c.times.length) (hlenr : c.rates.length = c.times.length)
    (hr : ∀ r ∈ c.rates, 0 ≤ r) (t : ℚ) : 0 ≤ interp_lambda c t := by
  have hrg : ∀ i, i < c.rates.length → 0 ≤ c.rates.getD i 0 := by
    intro i hi
    rw [List.getD_eq_getElem _ _ hi]
    exact hr _ (List.getElem_mem hi)
  unfold interp_lambda
  by_cases hA : t ≤ c.times.headD 0
  · rw [if_pos hA, headD_eq_getD]
    exact hrg 0 (by omega)
  · rw [if_neg hA]
    by_cases hB : c.times.getLastD 0 ≤ t
    · rw [if_pos hB, getLastD_eq_getD]
      exact hrg _ (by omega)
    · rw [if_neg hB]
      push_neg at hA hB
      rw [headD_eq_getD] at hA
      rw [getLastD_eq_getD] at hB
      have hbr := searchLoop_spec c.times t (c.times.length - 1) 0
        (c.times.length - 1) le_rfl (by omega) (le_of_lt hA) hB
      obtain ⟨heq1, _, hle2, hbl, hbr2⟩ := hbr
      set l := (searchLoop c.times t 0 (c.times.length - 1)).1 with hldef
      have hbr2' : t < c.times.getD (l + 1) 0 := by
        rw [← heq1]
        exact hbr2
      have hll : l + 1 < c.times.length := by
        have := heq1 ▸ hle2
        omega
      have hd : c.times.getD l 0 < c.times.getD (l + 1) 0 :=
        times_strict_mono c.times hch (by omega) hll
      have hpair : searchLoop c.times t 0 (c.times.length - 1) = (l, l + 1) :=
        Prod.ext hldef.symm heq1
      rw [hpair]
      show 0 ≤ c.rates.getD l 0 +
          (t - c.times.getD l 0) / (c.times.getD (l + 1) 0 - c.times.getD l 0) *
            (c.rates.getD (l + 1) 0 - c.rates.getD l 0)
      have hw0 : 0 ≤ (t - c.times.getD l 0) / (c.times.getD (l + 1) 0 - c.times.getD l 0) :=
        div_nonneg (sub_nonneg.mpr hbl) (le_of_lt (sub_pos.mpr hd))
      have hw1 : (t - c.times.getD l 0) / (c.times.getD (l + 1) 0 - c.times.getD l 0) ≤ 1 :=
        (div_le_one (sub_pos.mpr hd)).mpr (by linarith)
      have hr0 := hrg l (by omega)
      have hr1 := hrg (l + 1) (by omega)
      set w := (t - c.times.getD l 0) / (c.times.getD (l + 1) 0 - c.times.getD l 0)
      have : c.rates.getD l 0 + w * (c.rates.getD (l + 1) 0 - c.rates.getD l 0) =
          (1 - w) * c.rates.getD l 0 + w * c.rates.getD (l + 1) 0 := by ring
      rw [this]
      exact add_nonneg (mul_nonneg (by linarith) hr0) (mul_nonneg hw0 hr1)

/-- On a strictly sorted list, filtering by an upper bound is the same as
taking the initial run below the bound. -/
theorem sorted_filter_eq_takeWhile : ∀ (l : List ℚ) (T : ℚ), l.Pairwise (· < ·) →
    l.filter (fun t => decide (t < T)) = l.takeWhile (fun t => decide (t < T)) := by
  intro l T
  induction l with
  | nil => intro _; rfl
  | cons a t ih =>
    intro h
    by_cases ha : a < T
    · rw [List.filter_cons_of_pos (by simpa using ha),
        List.takeWhile_cons_of_pos (by simpa using ha), ih h.of_cons]
    · rw [List.filter_cons_of_neg (by simpa using ha),
        List.takeWhile_cons_of_neg (by simpa using ha)]
      rw [List.filter_eq_nil_iff.mpr]
      intro x hx
      have hax : a < x := (List.pairwise_cons.mp h).1 x hx
      have : ¬ x < T := by linarith [not_lt.mp ha]
      simpa using this

/-- Monotone predicates give nested `takeWhile` runs. -/
theorem takeWhile_prefix_of_imp : ∀ (l : List ℚ) (p q : ℚ → Bool),
    (∀ x, p x = true → q x = true) → l.takeWhile p <+: l.takeWhile q := by
  intro l p q h
  induction l with
  | nil => simp
  | cons a t ih =>
    by_cases hpa : p a = true
    · rw [List.takeWhile_cons_of_pos hpa, List.takeWhile_cons_of_pos (h a hpa)]
      exact List.cons_prefix_cons.mpr ⟨rfl, ih⟩
    · rw [List.takeWhile_cons_of_neg (by simpa using hpa)]
      exact List.nil_prefix

/-- The element just after the initial `takeWhile` run fails the
predicate. -/
theorem takeWhile_getD_fail : ∀ (l : List ℚ) (p : ℚ → Bool),
    (l.takeWhile p).length < l.length →
    p (l.getD (l.takeWhile p).length 0) = false := by
  intro l p
  induction l with
  | nil => intro h; simp at h
  | cons a t ih =>
    intro h
    by_cases hpa : p a = true
    · rw [List.takeWhile_cons_of_pos hpa] at h ⊢
      simp only [List.length_cons] at h ⊢
      rw [List.getD_cons_succ]
      exact ih (by omega)
    · rw [List.takeWhile_cons_of_neg (by simpa using hpa)] at h ⊢
      simp only [List.length_nil]
      rw [List.getD_cons_zero]
      simpa using hpa

/-- Elements of the initial `takeWhile` run satisfy the predicate, read
off through `getD`. -/
theorem takeWhile_getD_mem (l : List ℚ) (p : ℚ → Bool) (i : ℕ)
    (hi : i < (l.takeWhile p).length) : p ((l.takeWhile p).getD i 0) = true := by
  rw [List.getD_eq_getElem _ _ hi]
  exact List.mem_takeWhile_imp (List.getElem_mem hi)

/-- Splitting a trapezoid sum at an interior grid point. -/
theorem trapSum_append (f : ℚ → ℚ) : ∀ (l1 : List ℚ) (a : ℚ) (l2 : List ℚ),
    trapSum f (l1 ++ a :: l2) = trapSum f (l1 ++ [a]) + trapSum f (a :: l2) := by
  intro l1
  induction l1 with
  | nil =>
    intro a l2
    simp [trapSum]
  | cons x l ih =>
    intro a l2
    cases l with
    | nil =>
      simp only [List.cons_append, List.nil_append, trapSum]
      ring
    | cons y l2' =>
      have e1 : (x :: y :: l2') ++ a :: l2 = x :: (y :: (l2' ++ a :: l2)) := rfl
      have e2 : (x :: y :: l2') ++ [a] = x :: (y :: (l2' ++ [a])) := rfl
      rw [e1, e2]
      show 1 / 2 * (f x + f y) * (y - x) + trapSum f (y :: (l2' ++ a :: l2)) =
        1 / 2 * (f x + f y) * (y - x) + trapSum f (y :: (l2' ++ [a])) +
          trapSum f (a :: l2)
      have h3 := ih a l2
      have e3 : (y :: l2') ++ a :: l2 = y :: (l2' ++ a :: l2) := rfl
      have e4 : (y :: l2') ++ [a] = y :: (l2' ++ [a]) := rfl
      rw [e3, e4] at h3
      rw [h3]
      ring

/-- Appending one more grid point adds one trapezoid. -/
theorem trapSum_snoc (f : ℚ → ℚ) (l : List ℚ) (a b : ℚ) :
    trapSum f ((l ++ [a]) ++ [b]) =
      trapSum f (l ++ [a]) + 1 / 2 * (f a + f b) * (b - a) := by
  rw [List.append_assoc, List.singleton_append, trapSum_append f l a [b]]
  simp [trapSum]

/-- A trapezoid sum of a non-negative integrand over an ascending grid is
non-negative. -/
theorem trapSum_nonneg (f : ℚ → ℚ) (hf : ∀ x, 0 ≤ f x) :
    ∀ l : List ℚ, l.Chain' (· ≤ ·) → 0 ≤ trapSum f l := by
  intro l
  induction l with
  | nil => intro _; simp [trapSum]
  | cons a t ih =>
    intro h
    cases t with
    | nil => simp [trapSum]
    | cons b rest =>
      have hab : a ≤ b := List.chain'_cons.mp h |>.1
      have hrest := List.chain'_cons.mp h |>.2
      simp only [trapSum]
      have h1 : 0 ≤ 1 / 2 * (f a + f b) * (b - a) := by
        apply mul_nonneg
        · apply mul_nonneg (by norm_num)
          exact add_nonneg (hf a) (hf b)
        · exact sub_nonneg.mpr hab
      exact add_nonneg h1 (ih hrest)

/-- A well-formed knot-time list is `0` consed onto its tail. -/
theorem times_decomp (c : HazardRateCurve) (hhead : c.times.headD 0 = 0)
    (hlen2 : 2 ≤ c.times.length) : c.times = 0 :: c.times.drop 1 := by
  cases h : c.times with
  | nil => rw [h] at hlen2; norm_num at hlen2
  | cons a tl =>
    rw [h] at hhead
    simp only [List.headD_cons] at hhead
    simp [hhead]

/-- Every tail knot of a well-formed curve is strictly positive. -/
theorem tail_pos (c : HazardRateCurve) (hch : c.times.Chain' (· < ·))
    (hhead : c.times.headD 0 = 0) (hlen2 : 2 ≤ c.times.length) :
    ∀ x ∈ c.times.drop 1, (0 : ℚ) < x := by
  have hpair : List.Pairwise (· < ·) (0 :: c.times.drop 1) := by
    rw [← times_decomp c hhead hlen2]
    exact (List.chain'_iff_pairwise).mp hch
  exact (List.pairwise_cons.mp hpair).1

/-- The tail knots of a well-formed curve are strictly sorted. -/
theorem tail_sorted (c : HazardRateCurve) (hch : c.times.Chain' (· < ·))
    (hhead : c.times.headD 0 = 0) (hlen2 : 2 ≤ c.times.length) :
    (c.times.drop 1).Pairwise (· < ·) := by
  have hpair : List.Pairwise (· < ·) (0 :: c.times.drop 1) := by
    rw [← times_decomp c hhead hlen2]
    exact (List.chain'_iff_pairwise).mp hch
  exact hpair.of_cons

/-- `getLast` agrees with `getLastD 0`. -/
theorem getLast_eq_getLastD_zero (l : List ℚ) (h : l ≠ []) :
    l.getLast h = l.getLastD 0 := by
  rw [List.getLastD_eq_getLast?, List.getLast?_eq_getLast l h]
  rfl

/-- On a strictly sorted list, taking while below the `k`-th element is
taking the first `k` elements. -/
theorem sorted_takeWhile_lt_getD : ∀ (l : List ℚ), l.Pairwise (· < ·) →
    ∀ k, k < l.length →
      l.takeWhile (fun t => decide (t < l.getD k 0)) = l.take k := by
  intro l
  induction l with
  | nil =>
    intro _ k hk
    simp at hk
  | cons a t ih =>
    intro hs k hk
    cases k with
    | zero =>
      simp only [List.getD_cons_zero, List.take_zero]
      rw [List.takeWhile_cons_of_neg (by simp)]
    | succ j =>
      simp only [List.getD_cons_succ]
      have hlt : decide (a < t.getD j 0) = true := by
        have hmem : t.getD j 0 ∈ t := by
          rw [List.getD_eq_getElem _ _ (by simpa using hk)]
          exact List.getElem_mem _
        simpa using (List.pairwise_cons.mp hs).1 _ hmem
      rw [@List.takeWhile_cons_of_pos ℚ (fun x => decide (x < t.getD j 0)) a t hlt,
        List.take_succ_cons, ih hs.of_cons j (by simpa using hk)]

/-- The unsorted grid of `survival_probability` is already ascending. -/
theorem grid_pairwise (c : HazardRateCurve) (hch : c.times.Chain' (· < ·))
    (hhead : c.times.headD 0 = 0) (hlen2 : 2 ≤ c.times.length) (T : ℚ)
    (hT : 0 < T) :
    List.Pairwise (· ≤ ·)
      ((0 :: (c.times.drop 1).takeWhile (fun t => decide (t < T))) ++ [T]) := by
  have tlpos := tail_pos c hch hhead hlen2
  have tlsorted := tail_sorted c hch hhead hlen2
  apply List.pairwise_append.mpr
  refine ⟨?_, by simp, ?_⟩
  · apply List.pairwise_cons.mpr
    constructor
    · intro x hx
      exact le_of_lt (tlpos x (( List.takeWhile_prefix _).sublist.subset hx))
    · exact (tlsorted.sublist ( List.takeWhile_prefix _).sublist).imp le_of_lt
  · intro a ha b hb
    simp only [List.mem_singleton] at hb
    subst hb
    rcases List.mem_cons.mp ha with rfl | hm
    · exact le_of_lt hT
    · exact le_of_lt (by simpa using List.mem_takeWhile_imp hm)

/-- The integration grid of `survival_probability`, for a positive
horizon over a well-formed curve, is the knot run below `T` with the
endpoints `0` and `T` attached (the sort is the identity). -/
theorem survGrid_eq_takeWhile (c : HazardRateCurve) (hch : c.times.Chain' (· < ·))
    (hhead : c.times.headD 0 = 0) (hlen2 : 2 ≤ c.times.length) (T : ℚ)
    (hT : 0 < T) :
    survGrid c T =
      (0 :: (c.times.drop 1).takeWhile (fun t => decide (t < T))) ++ [T] := by
  have tlpos := tail_pos c hch hhead hlen2
  have tlsorted := tail_sorted c hch hhead hlen2
  unfold survGrid
  rw [times_decomp c hhead hlen2]
  simp only [List.drop_succ_cons, List.drop_zero]
  have hcg : List.filter (fun t => decide (0 < t ∧ t < T)) (c.times.drop 1) =
      List.filter (fun t => decide (t < T)) (c.times.drop 1) :=
    List.filter_congr (fun x hx => by
      have := tlpos x hx
      by_cases hxT : x < T <;> simp [hxT, this])
  rw [hcg, sorted_filter_eq_takeWhile (c.times.drop 1) T tlsorted]
  exact List.mergeSort_eq_self (grid_pairwise c hch hhead hlen2 T hT)

/-- The trapezoidal integral of a non-negative curve over a positive
horizon is non-negative. -/
theorem survIntegral_nonneg (c : HazardRateCurve) (hch : c.times.Chain' (· < ·))
    (hhead : c.times.headD 0 = 0) (hlen2 : 2 ≤ c.times.length)
    (hlenr : c.rates.length = c.times.length) (hr : ∀ r ∈ c.rates, 0 ≤ r)
    (T : ℚ) (hT : 0 < T) : 0 ≤ survIntegral c T := by
  unfold survIntegral
  rw [survGrid_eq_takeWhile c hch hhead hlen2 T hT]
  apply trapSum_nonneg _ (interp_lambda_nonneg c hch hlen2 hlenr hr)
  exact (List.chain'_iff_pairwise).mpr (grid_pairwise c hch hhead hlen2 T hT)

/-- Monotonicity of a single trapezoid on one affine segment: moving the
right endpoint from `T1` to `T2` inside the segment `[a, b]` does not
decrease the trapezoid area when the endpoint rates are non-negative. -/
theorem seg_mono (a b ra rb T1 T2 : ℚ) (hd : a < b) (hra : 0 ≤ ra) (hrb : 0 ≤ rb)
    (h1 : a ≤ T1) (h2 : T1 ≤ T2) (h3 : T2 ≤ b) :
    1 / 2 * (ra + (ra + (T1 - a) / (b - a) * (rb - ra))) * (T1 - a) ≤
      1 / 2 * (ra + (ra + (T2 - a) / (b - a) * (rb - ra))) * (T2 - a) := by
  have hd0 : (0 : ℚ) < b - a := sub_pos.mpr hd
  have hne : b - a ≠ 0 := ne_of_gt hd0
  rw [← sub_nonneg]
  have key : 1 / 2 * (ra + (ra + (T2 - a) / (b - a) * (rb - ra))) * (T2 - a) -
      1 / 2 * (ra + (ra + (T1 - a) / (b - a) * (rb - ra))) * (T1 - a) =
      (T2 - T1) * (ra * (2 * (b - a) - (T1 + T2 - 2 * a)) +
        rb * (T1 + T2 - 2 * a)) / (2 * (b - a)) := by
    field_simp
    ring
  rw [key]
  apply div_nonneg _ (by linarith)
  apply mul_nonneg (by linarith)
  have e1 : (0 : ℚ) ≤ T1 + T2 - 2 * a := by linarith
  have e2 : (0 : ℚ) ≤ 2 * (b - a) - (T1 + T2 - 2 * a) := by linarith
  exact add_nonneg (mul_nonneg hra e2) (mul_nonneg hrb e1)

/-- Monotonicity of the trapezoidal integral between two horizons whose
grids share the same knot run. -/
theorem survIntegral_mono_stable (c : HazardRateCurve)
    (hch : c.times.Chain' (· < ·)) (hhead : c.times.headD 0 = 0)
    (hlen2 : 2 ≤ c.times.length) (hlenr : c.rates.length = c.times.length)
    (hr : ∀ r ∈ c.rates, 0 ≤ r) (T1 T2 : ℚ) (h1 : 0 < T1) (h12 : T1 ≤ T2)
    (heq : (c.times.drop 1).takeWhile (fun t => decide (t < T1)) =
      (c.times.drop 1).takeWhile (fun t => decide (t < T2))) :
    survIntegral c T1 ≤ survIntegral c T2 := by
  have h2 : (0 : ℚ) < T2 := lt_of_lt_of_le h1 h12
  have hrg : ∀ i, i < c.rates.length → 0 ≤ c.rates.getD i 0 := by
    intro i hi
    rw [List.getD_eq_getElem _ _ hi]
    exact hr _ (List.getElem_mem hi)
  have hlt' : c.times.length = (c.times.drop 1).length + 1 := by
    have := congrArg List.length (times_decomp c hhead hlen2)
    simpa using this
  unfold survIntegral
  rw [survGrid_eq_takeWhile c hch hhead hlen2 T1 h1,
    survGrid_eq_takeWhile c hch hhead hlen2 T2 h2, ← heq]
  set P := (c.times.drop 1).takeWhile (fun t => decide (t < T1)) with hP
  have hne0 : (0 :: P) ≠ [] := List.cons_ne_nil 0 P
  have hsplit := List.dropLast_append_getLast hne0
  set p := (0 :: P).getLast hne0 with hpd
  rw [← hsplit, trapSum_snoc, trapSum_snoc]
  apply add_le_add_left
  have hmem : p ∈ 0 :: P := by
    rw [hpd]
    exact List.getLast_mem hne0
  have hpT1 : p < T1 := by
    rcases List.mem_cons.mp hmem with h0 | hm
    · rw [h0]
      exact h1
    · rw [hP] at hm
      simpa using List.mem_takeWhile_imp hm
  set k := P.length with hk
  have hkle : k ≤ (c.times.drop 1).length := by
    rw [hk, hP]
    exact ( List.takeWhile_prefix _).length_le
  have h0P : (0 :: P) <+: c.times := by
    rw [times_decomp c hhead hlen2]
    refine List.cons_prefix_cons.mpr ⟨rfl, ?_⟩
    rw [hP]
    exact List.takeWhile_prefix _
  have hplen : (0 :: P).length = k + 1 := by simp [hk]
  have hpk : p = c.times.getD k 0 := by
    rw [hpd, getLast_eq_getLastD_zero, getLastD_eq_getD, hplen]
    simp only [Nat.add_sub_cancel]
    rw [List.getD_eq_getElem _ _ (by rw [hplen]; omega),
      List.getD_eq_getElem _ _ (by omega)]
    exact h0P.getElem _
  by_cases hkfull : k = (c.times.drop 1).length
  · have hplast : p = c.times.getLastD 0 := by
      rw [hpk, getLastD_eq_getD]
      congr 1
      omega
    have hfp : interp_lambda c p = c.rates.getLastD 0 :=
      interp_lambda_right c hch hlen2 p (by rw [← hplast])
    have hfT1 : interp_lambda c T1 = c.rates.getLastD 0 :=
      interp_lambda_right c hch hlen2 T1 (by rw [← hplast]; exact le_of_lt hpT1)
    have hfT2 : interp_lambda c T2 = c.rates.getLastD 0 :=
      interp_lambda_right c hch hlen2 T2
        (by rw [← hplast]; exact le_of_lt (lt_of_lt_of_le hpT1 h12))
    have hr0 : 0 ≤ c.rates.getLastD 0 := by
      rw [getLastD_eq_getD]
      exact hrg _ (by omega)
    rw [hfp, hfT1, hfT2]
    nlinarith [mul_nonneg hr0 (sub_nonneg.mpr h12)]
  · have hkl : k < (c.times.drop 1).length := lt_of_le_of_ne hkle hkfull
    have hk1 : k + 1 < c.times.length := by omega
    have hn : c.times.getD (k + 1) 0 = (c.times.drop 1).getD k 0 := by
      rw [show c.times.getD (k + 1) 0 = (0 :: c.times.drop 1).getD (k + 1) 0 from by
        rw [← times_decomp c hhead hlen2], List.getD_cons_succ]
    have hfail := takeWhile_getD_fail (c.times.drop 1)
      (fun t => decide (t < T2)) (by rw [← heq, ← hk]; exact hkl)
    rw [← heq, ← hk] at hfail
    have hT2n : T2 ≤ c.times.getD (k + 1) 0 := by
      rw [hn]
      exact le_of_not_lt (by simpa using hfail)
    have hpkle : c.times.getD k 0 ≤ T1 := by
      rw [← hpk]
      exact le_of_lt hpT1
    have hdj : c.times.getD k 0 < c.times.getD (k + 1) 0 :=
      times_strict_mono c.times hch (by omega) hk1
    have hfT1 := interp_lambda_affine c hch hlen2 hlenr k hk1 T1 hpkle
      (le_trans h12 hT2n)
    have hfT2 := interp_lambda_affine c hch hlen2 hlenr k hk1 T2
      (le_trans hpkle h12) hT2n
    have hfp : interp_lambda c p = c.rates.getD k 0 := by
      have haff := interp_lambda_affine c hch hlen2 hlenr k hk1 p
        (by rw [hpk]) (by rw [hpk]; exact le_of_lt hdj)
      rw [haff, hpk, sub_self, zero_div, zero_mul, add_zero]
    rw [hfp, hfT1, hfT2, hpk]
    exact seg_mono (c.times.getD k 0) (c.times.getD (k + 1) 0)
      (c.rates.getD k 0) (c.rates.getD (k + 1) 0) T1 T2 hdj
      (hrg _ (by omega)) (hrg _ (by omega)) hpkle h12 hT2n

/-- Monotonicity of the trapezoidal integral in the horizon. -/
theorem survIntegral_mono (c : HazardRateCurve) (hch : c.times.Chain' (· < ·))
    (hhead : c.times.headD 0 = 0) (hlen2 : 2 ≤ c.times.length)
    (hlenr : c.rates.length = c.times.length) (hr : ∀ r ∈ c.rates, 0 ≤ r)
    (T1 T2 : ℚ) (h1 : 0 < T1) (h12 : T1 ≤ T2) :
    survIntegral c T1 ≤ survIntegral c T2 := by
  set P1 := (c.times.drop 1).takeWhile (fun t => decide (t < T1)) with hP1
  set P2 := (c.times.drop 1).takeWhile (fun t => decide (t < T2)) with hP2
  by_cases hEq : P1 = P2
  · exact survIntegral_mono_stable c hch hhead hlen2 hlenr hr T1 T2 h1 h12
      (by rw [← hP1, ← hP2]; exact hEq)
  · have hpre : P1 <+: P2 := by
      rw [hP1, hP2]
      exact takeWhile_prefix_of_imp _ _ _ (fun x hx => by
        simp only [decide_eq_true_eq] at hx ⊢
        linarith)
    have hlt : P1.length < P2.length := by
      rcases eq_or_lt_of_le hpre.length_le with he | h
      · exact absurd (hpre.eq_of_length he) hEq
      · exact h
    have hk2 : P2.length ≤ (c.times.drop 1).length := by
      rw [hP2]
      exact ( List.takeWhile_prefix _).length_le
    have hkl : P1.length < (c.times.drop 1).length := lt_of_lt_of_le hlt hk2
    set n := (c.times.drop 1).getD P1.length 0 with hn
    have hfail := takeWhile_getD_fail (c.times.drop 1)
      (fun t => decide (t < T1)) (by rw [← hP1]; exact hkl)
    rw [← hP1] at hfail
    have hT1n : T1 ≤ n := by
      rw [hn]
      exact le_of_not_lt (by simpa using hfail)
    have hpre2 : P2 <+: c.times.drop 1 := by
      rw [hP2]
      exact List.takeWhile_prefix _
    have hnT2 : n < T2 := by
      have hmemn : n ∈ P2 := by
        have hgp : P2.getD P1.length 0 = (c.times.drop 1).getD P1.length 0 := by
          rw [List.getD_eq_getElem _ _ hlt, List.getD_eq_getElem _ _ hkl]
          exact hpre2.getElem _
        rw [hn, ← hgp, List.getD_eq_getElem _ _ hlt]
        exact List.getElem_mem _
      rw [hP2] at hmemn
      simpa using List.mem_takeWhile_imp hmemn
    have h0n : 0 < n := lt_of_lt_of_le h1 hT1n
    have hPn : (c.times.drop 1).takeWhile (fun t => decide (t < n)) = P1 := by
      rw [hn, sorted_takeWhile_lt_getD (c.times.drop 1)
        (tail_sorted c hch hhead hlen2) _ hkl, hP1]
      exact (List.prefix_iff_eq_take.mp ( List.takeWhile_prefix _)).symm
    have step1 : survIntegral c T1 ≤ survIntegral c n :=
      survIntegral_mono_stable c hch hhead hlen2 hlenr hr T1 n h1 hT1n
        (hP1.symm.trans hPn.symm)
    have step2 : survIntegral c n ≤ survIntegral c T2 := by
      have hT2pos : (0 : ℚ) < T2 := lt_of_lt_of_le h1 h12
      unfold survIntegral
      rw [survGrid_eq_takeWhile c hch hhead hlen2 n h0n,
        survGrid_eq_takeWhile c hch hhead hlen2 T2 hT2pos, hPn, ← hP2]
      have htake1 : P1 ++ [n] = (c.times.drop 1).take (P1.length + 1) := by
        rw [List.take_succ, hn]
        congr 1
        · rw [hP1]
          exact List.prefix_iff_eq_take.mp ( List.takeWhile_prefix _)
        · rw [List.getElem?_eq_getElem hkl, List.getD_eq_getElem _ _ hkl]
          rfl
      have hpre3 : P1 ++ [n] <+: P2 := by
        rw [htake1, List.prefix_iff_eq_take.mp hpre2]
        exact List.take_prefix_take_left _ (by omega)
      obtain ⟨rest, hrest⟩ := hpre3
      rw [← hrest]
      have hshape : (0 :: (P1 ++ [n] ++ rest)) ++ [T2] =
          (0 :: P1) ++ (n :: (rest ++ [T2])) := by
        simp [List.append_assoc]
      rw [hshape, trapSum_append (interp_lambda c) (0 :: P1) n (rest ++ [T2])]
      have hP2sorted : (P1 ++ [n] ++ rest).Pairwise (· < ·) := by
        rw [hrest, hP2]
        exact (tail_sorted c hch hhead hlen2).sublist
          ( List.takeWhile_prefix _).sublist
      have hsub : (n :: rest).Pairwise (· < ·) := by
        refine hP2sorted.sublist ?_
        rw [List.append_assoc]
        simp
      have hallT2 : ∀ x ∈ n :: rest, x < T2 := by
        intro x hx
        have hxP2 : x ∈ P2 := by
          rw [← hrest, List.append_assoc]
          exact List.mem_append_right _ (by simpa using hx)
        rw [hP2] at hxP2
        simpa using List.mem_takeWhile_imp hxP2
      have hnon : 0 ≤ trapSum (interp_lambda c) (n :: (rest ++ [T2])) := by
        apply trapSum_nonneg _ (interp_lambda_nonneg c hch hlen2 hlenr hr)
        apply (List.chain'_iff_pairwise).mpr
        have hform : n :: (rest ++ [T2]) = (n :: rest) ++ [T2] := rfl
        rw [hform]
        apply List.pairwise_append.mpr
        refine ⟨hsub.imp le_of_lt, by simp, ?_⟩
        intro a ha b hb
        simp only [List.mem_singleton] at hb
        subst hb
        exact le_of_lt (hallT2 a ha)
      linarith
    exact le_trans step1 step2

/-- `year_fraction` over a fixed valuation date is monotone in the end
date. -/
theorem year_fraction_mono (v : Date) {a b : Date} (h : a ≤ b) :
    year_fraction v a ≤ year_fraction v b := by
  unfold year_fraction
  rw [div_le_div_iff_of_pos_right (by norm_num : (0 : ℚ) < 365)]
  have : (a : ℚ) ≤ (b : ℚ) := by exact_mod_cast h
  push_cast
  linarith

end Hazard

/-- C1: over every well-formed hazard-knot state with non-negative rates,
`survival_probability` is non-increasing in the horizon date, and (with
no sign restriction) `survival_probability(valuation_date)` is exactly
`1.0`. -/
theorem survival_probability_monotone_spec :
    (∀ c : Hazard.HazardRateCurve, Hazard.WF c → (∀ r ∈ c.rates, 0 ≤ r) →
      ∀ d1 d2 : Date, d1 ≤ d2 →
        Hazard.survival_probability c d2 ≤ Hazard.survival_probability c d1) ∧
    (∀ c : Hazard.HazardRateCurve,
      Hazard.survival_probability c c.valuation_date = 1) := by
  constructor
  · intro c hwf hr d1 d2 h12
    obtain ⟨hch, hhead, hlen2, hlenr⟩ := hwf
    have hTle : Hazard.year_fraction c.valuation_date d1 ≤
        Hazard.year_fraction c.valuation_date d2 :=
      Hazard.year_fraction_mono c.valuation_date h12
    unfold Hazard.survival_probability
    by_cases h2 : Hazard.year_fraction c.valuation_date d2 ≤ 0
    · rw [if_pos h2, if_pos (le_trans hTle h2)]
    · rw [if_neg h2]
      push_neg at h2
      by_cases h1 : Hazard.year_fraction c.valuation_date d1 ≤ 0
      · rw [if_pos h1, Real.exp_le_one_iff, neg_nonpos]
        exact_mod_cast Hazard.survIntegral_nonneg c hch hhead hlen2 hlenr hr _ h2
      · rw [if_neg h1, Real.exp_le_exp, neg_le_neg_iff, Rat.cast_le]
        push_neg at h1
        exact Hazard.survIntegral_mono c hch hhead hlen2 hlenr hr _ _ h1 hTle
  · intro c
    unfold Hazard.survival_probability
    rw [if_pos]
    unfold Hazard.year_fraction
    norm_num

/-- C1 witness: a concrete two-knot curve, checked on a pair of ordered
dates and at the valuation date. -/
theorem survival_probability_monotone_spec_witness :
    Hazard.survival_probability ⟨0, [0, 1], [1 / 100, 1 / 50]⟩ 300 ≤
      Hazard.survival_probability ⟨0, [0, 1], [1 / 100, 1 / 50]⟩ 100 ∧
    Hazard.survival_probability ⟨0, [0, 1], [1 / 100, 1 / 50]⟩ 0 = 1 := by
  constructor
  · apply survival_probability_monotone_spec.1 ⟨0, [0, 1], [1 / 100, 1 / 50]⟩
    · refine ⟨?_, rfl, by norm_num, by norm_num⟩
      simp only [List.chain'_cons, List.chain'_singleton, and_true]
      norm_num
    · intro r hr
      simp only [List.mem_cons, List.mem_singleton] at hr
      rcases hr with rfl | rfl | h
      · norm_num
      · norm_num
      · simp at h
    · norm_num
  · exact survival_probability_monotone_spec.2 ⟨0, [0, 1], [1 / 100, 1 / 50]⟩

/-- C8: on a well-formed curve the interpolated hazard is flat outside
the knot range (the last rate beyond the last knot, the first rate before
the first), and for a horizon at or beyond the last knot the survival
integral is the integral up to the last knot plus
`λ_last * (T - t_last)`. -/
theorem flat_extrapolation_spec (c : Hazard.HazardRateCurve) (hwf : Hazard.WF c) :
    (∀ t : ℚ, c.times.getLastD 0 ≤ t →
      Hazard.interp_lambda c t = c.rates.getLastD 0) ∧
    (∀ t : ℚ, t ≤ c.times.headD 0 →
      Hazard.interp_lambda c t = c.rates.headD 0) ∧
    (∀ T : ℚ, c.times.getLastD 0 ≤ T →
      Hazard.survIntegral c T = Hazard.survIntegral c (c.times.getLastD 0) +
        c.rates.getLastD 0 * (T - c.times.getLastD 0)) := by
  obtain ⟨hch, hhead, hlen2, hlenr⟩ := hwf
  refine ⟨fun t ht => Hazard.interp_lambda_right c hch hlen2 t ht,
    fun t ht => Hazard.interp_lambda_left c t ht, ?_⟩
  intro T hT
  have hlt' : c.times.length = (c.times.drop 1).length + 1 := by
    have := congrArg List.length (Hazard.times_decomp c hhead hlen2)
    simpa using this
  have htlne : c.times.drop 1 ≠ [] := by
    intro hnil
    rw [hnil] at hlt'
    simp at hlt'
    omega
  have h00 : c.times.getD 0 0 = 0 := by
    rw [← Hazard.headD_eq_getD]
    exact hhead
  have hLpos : (0 : ℚ) < c.times.getLastD 0 := by
    calc (0 : ℚ) = c.times.getD 0 0 := h00.symm
      _ < c.times.getD (c.times.length - 1) 0 :=
        Hazard.times_strict_mono c.times hch (by omega) (by omega)
      _ = c.times.getLastD 0 := (Hazard.getLastD_eq_getD c.times).symm
  have hlast_tl : (c.times.drop 1).getLastD 0 = c.times.getLastD 0 := by
    conv_rhs => rw [Hazard.times_decomp c hhead hlen2]
    cases h : c.times.drop 1 with
    | nil => exact absurd h htlne
    | cons a t =>
      rw [List.getLastD_eq_getLast?, List.getLastD_eq_getLast?,
        List.getLast?_cons_cons]
  rcases eq_or_lt_of_le hT with rfl | hTlt
  · simp
  · have hTpos : (0 : ℚ) < T := lt_trans hLpos hTlt
    have hdrop_chain : (c.times.drop 1).Chain' (· < ·) :=
      (List.chain'_iff_pairwise).mpr (Hazard.tail_sorted c hch hhead hlen2)
    have hmemlt : ∀ x ∈ c.times.drop 1, decide (x < T) = true := by
      intro x hx
      have hxle : x ≤ (c.times.drop 1).getLastD 0 := by
        rw [Hazard.getLastD_eq_getD]
        obtain ⟨i, hi, hix⟩ := List.mem_iff_getElem.mp hx
        calc x = (c.times.drop 1)[i] := hix.symm
          _ = (c.times.drop 1).getD i 0 := (List.getD_eq_getElem _ _ hi).symm
          _ ≤ (c.times.drop 1).getD ((c.times.drop 1).length - 1) 0 :=
            Hazard.times_mono _ hdrop_chain (by omega) (by omega)
      rw [hlast_tl] at hxle
      simp only [decide_eq_true_eq]
      linarith
    have htake_full : (c.times.drop 1).takeWhile (fun t => decide (t < T)) =
        c.times.drop 1 := List.takeWhile_eq_self_iff.mpr hmemlt
    have hgT : Hazard.survGrid c T = c.times ++ [T] := by
      rw [Hazard.survGrid_eq_takeWhile c hch hhead hlen2 T hTpos, htake_full,
        ← Hazard.times_decomp c hhead hlen2]
    have htakeL : (c.times.drop 1).takeWhile
        (fun t => decide (t < c.times.getLastD 0)) = (c.times.drop 1).dropLast := by
      have hLd : c.times.getLastD 0 =
          (c.times.drop 1).getD ((c.times.drop 1).length - 1) 0 := by
        rw [← hlast_tl, Hazard.getLastD_eq_getD]
      rw [hLd, Hazard.sorted_takeWhile_lt_getD (c.times.drop 1)
        (Hazard.tail_sorted c hch hhead hlen2) _ (by omega),
        List.dropLast_eq_take]
    have hgL : Hazard.survGrid c (c.times.getLastD 0) = c.times := by
      rw [Hazard.survGrid_eq_takeWhile c hch hhead hlen2 _ hLpos, htakeL]
      have hgl : (c.times.drop 1).getLast htlne = c.times.getLastD 0 := by
        rw [Hazard.getLast_eq_getLastD_zero _ htlne, hlast_tl]
      calc (0 :: (c.times.drop 1).dropLast) ++ [c.times.getLastD 0]
          = 0 :: ((c.times.drop 1).dropLast ++ [c.times.getLastD 0]) := rfl
        _ = 0 :: ((c.times.drop 1).dropLast ++ [(c.times.drop 1).getLast htlne]) := by
            rw [hgl]
        _ = 0 :: c.times.drop 1 := by rw [List.dropLast_append_getLast htlne]
        _ = c.times := (Hazard.times_decomp c hhead hlen2).symm
    unfold Hazard.survIntegral
    rw [hgT, hgL]
    have htne : c.times ≠ [] := by
      intro h
      rw [h] at hlen2
      norm_num at hlen2
    have hsp := List.dropLast_append_getLast htne
    rw [← hsp, Hazard.trapSum_snoc]
    have hgl2 : c.times.getLast htne = c.times.getLastD 0 :=
      Hazard.getLast_eq_getLastD_zero _ htne
    rw [hgl2, Hazard.interp_lambda_right c hch hlen2 _ (le_refl _),
      Hazard.interp_lambda_right c hch hlen2 T hT]
    have hcat : (c.times.dropLast ++ [c.times.getLastD 0]).getLastD 0 =
        c.times.getLastD 0 := by
      rw [List.getLastD_eq_getLast?, List.getLast?_concat]
      rfl
    rw [hcat]
    ring

/-- C8 witness: concrete curve, extrapolated query and extended horizon. -/
theorem flat_extrapolation_spec_witness :
    Hazard.interp_lambda ⟨0, [0, 1], [1 / 100, 1 / 50]⟩ 2 =
      ([1 / 100, 1 / 50] : List ℚ).getLastD 0 ∧
    Hazard.survIntegral ⟨0, [0, 1], [1 / 100, 1 / 50]⟩ 2 =
      Hazard.survIntegral ⟨0, [0, 1], [1 / 100, 1 / 50]⟩
          (([0, 1] : List ℚ).getLastD 0) +
        ([1 / 100, 1 / 50] : List ℚ).getLastD 0 *
          (2 - ([0, 1] : List ℚ).getLastD 0) := by
  have hwf : Hazard.WF ⟨0, [0, 1], [1 / 100, 1 / 50]⟩ := by
    refine ⟨?_, rfl, by norm_num, by norm_num⟩
    simp only [List.chain'_cons, List.chain'_singleton, and_true]
    norm_num
  have h := flat_extrapolation_spec ⟨0, [0, 1], [1 / 100, 1 / 50]⟩ hwf
  exact ⟨h.1 2 (by norm_num), h.2.2 2 (by norm_num)⟩

/-! ## Loader lemmas (towards claim C4) -/

namespace Hazard

/-- The key ordering used to sort rows is transitive. -/
theorem keyle_trans : ∀ (a b c : Date × ℚ), decide (a.1 ≤ b.1) = true →
    decide (b.1 ≤ c.1) = true → decide (a.1 ≤ c.1) = true := by
  intro a b c h1 h2
  simp only [decide_eq_true_eq] at h1 h2 ⊢
  exact le_trans h1 h2

/-- The key ordering used to sort rows is total. -/
theorem keyle_total : ∀ (a b : Date × ℚ),
    (decide (a.1 ≤ b.1) || decide (b.1 ≤ a.1)) = true := by
  intro a b
  simp only [Bool.or_eq_true, decide_eq_true_eq]
  exact le_total a.1 b.1

/-- A date strictly after the valuation date has positive year fraction. -/
theorem year_fraction_pos (v a : Date) (h : v < a) : 0 < year_fraction v a := by
  unfold year_fraction
  apply div_pos _ (by norm_num)
  exact_mod_cast sub_pos.mpr h

/-- `year_fraction` is strictly monotone in the end date. -/
theorem year_fraction_strict_mono (v : Date) {a b : Date} (h : a < b) :
    year_fraction v a < year_fraction v b := by
  unfold year_fraction
  rw [div_lt_div_iff_of_pos_right (by norm_num : (0 : ℚ) < 365)]
  push_cast
  have : (a : ℚ) < (b : ℚ) := by exact_mod_cast h
  linarith

/-- Distinct dates give year fractions at least `1/365` apart, so the
`1e-12` duplicate-knot test can only fire on equal dates. -/
theorem year_fraction_gap (v a b : Date) (h : a ≠ b) :
    ¬ |year_fraction v a - year_fraction v b| < 1 / 10 ^ 12 := by
  unfold year_fraction
  have hd : ((a - v : ℤ) : ℚ) / 365 - ((b - v : ℤ) : ℚ) / 365 =
      ((a - b : ℤ) : ℚ) / 365 := by
    push_cast
    ring
  rw [hd, abs_div, abs_of_pos (show (0 : ℚ) < 365 by norm_num)]
  have h1 : (1 : ℚ) ≤ |((a - b : ℤ) : ℚ)| := by
    have : 1 ≤ |a - b| := Int.one_le_abs (sub_ne_zero.mpr h)
    calc (1 : ℚ) ≤ ((|a - b| : ℤ) : ℚ) := by exact_mod_cast this
      _ = |((a - b : ℤ) : ℚ)| := by push_cast; rfl
  push_neg
  calc (1 : ℚ) / 10 ^ 12 ≤ 1 / 365 := by norm_num
    _ ≤ |((a - b : ℤ) : ℚ)| / 365 :=
      (div_le_div_iff_of_pos_right (by norm_num : (0 : ℚ) < 365)).mpr h1

/-- A non-empty list has the same `getLastD` for every default. -/
theorem getLastD_irrel (l : List (Date × ℚ)) (d1 d2 : Date × ℚ) (h : l ≠ []) :
    l.getLastD d1 = l.getLastD d2 := by
  rw [List.getLastD_eq_getLast?, List.getLastD_eq_getLast?,
    List.getLast?_eq_getLast l h]
  rfl

/-- Deduplication of a non-empty list is non-empty. -/
theorem dedupKeepLast_ne_nil : ∀ (x : Date × ℚ) (l : List (Date × ℚ)),
    dedupKeepLast (x :: l) ≠ [] := by
  intro x l
  induction l generalizing x with
  | nil => simp [dedupKeepLast]
  | cons y rest ih =>
    simp only [dedupKeepLast]
    split
    · exact ih y
    · simp

/-- Deduplication preserves the key of the head. -/
theorem dedupKeepLast_headD_key : ∀ (x : Date × ℚ) (l : List (Date × ℚ)),
    ((dedupKeepLast (x :: l)).headD (0, 0)).1 = x.1 := by
  intro x l
  induction l generalizing x with
  | nil => rfl
  | cons y rest ih =>
    simp only [dedupKeepLast]
    by_cases h : x.1 = y.1
    · rw [if_pos h, ih y, h]
    · rw [if_neg h]
      rfl

/-- Deduplication only keeps original rows. -/
theorem dedupKeepLast_subset : ∀ (l : List (Date × ℚ)) (x : Date × ℚ),
    x ∈ dedupKeepLast l → x ∈ l := by
  intro l
  induction l with
  | nil =>
    intro x hx
    simp [dedupKeepLast] at hx
  | cons a t ih =>
    cases t with
    | nil =>
      intro x hx
      simpa [dedupKeepLast] using hx
    | cons b rest =>
      intro x hx
      simp only [dedupKeepLast] at hx
      split at hx
      · exact List.mem_cons_of_mem a (ih x hx)
      · rcases List.mem_cons.mp hx with rfl | hm
        · exact List.mem_cons_self _ _
        · exact List.mem_cons_of_mem a (ih x hm)

/-- Deduplicating a key-sorted list leaves strictly increasing keys. -/
theorem dedupKeepLast_chain_keys : ∀ (l : List (Date × ℚ)),
    l.Pairwise (fun a b => a.1 ≤ b.1) →
    (dedupKeepLast l).Chain' (fun a b => a.1 < b.1) := by
  intro l
  induction l with
  | nil => intro _; simp [dedupKeepLast]
  | cons a t ih =>
    cases t with
    | nil => intro _; simp [dedupKeepLast]
    | cons b rest =>
      intro h
      obtain ⟨ha, hrest⟩ := List.pairwise_cons.mp h
      simp only [dedupKeepLast]
      split
      · exact ih hrest
      · rename_i hne
        apply List.chain'_cons'.mpr
        refine ⟨?_, ih hrest⟩
        intro y hy
        rw [List.head?_eq_head (dedupKeepLast_ne_nil b rest)] at hy
        simp only [Option.mem_def, Option.some.injEq] at hy
        subst hy
        have hhead : (dedupKeepLast (b :: rest)).headD (0, 0) =
            (dedupKeepLast (b :: rest)).head (dedupKeepLast_ne_nil b rest) := by
          rw [List.headD_eq_head?, List.head?_eq_head (dedupKeepLast_ne_nil b rest)]
          rfl
        have hab : a.1 ≤ b.1 := ha b (List.mem_cons_self _ _)
        rw [← hhead, dedupKeepLast_headD_key b rest]
        exact lt_of_le_of_ne hab hne

/-- Deduplication keeps, for each key, the last row of its run. -/
theorem dedupKeepLast_last_of_run : ∀ (l : List (Date × ℚ)),
    l.Pairwise (fun a b => a.1 ≤ b.1) → ∀ d : Date,
      l.filter (fun r => decide (r.1 = d)) ≠ [] →
      (l.filter (fun r => decide (r.1 = d))).getLastD (0, 0) ∈ dedupKeepLast l := by
  intro l
  induction l with
  | nil =>
    intro _ d h
    simp at h
  | cons x l' ih =>
    intro hp d hne
    obtain ⟨hx, hp'⟩ := List.pairwise_cons.mp hp
    by_cases hxd : x.1 = d
    · rw [List.filter_cons_of_pos (by simpa using hxd)] at hne ⊢
      cases l' with
      | nil => simp [dedupKeepLast]
      | cons y rest =>
        by_cases hxy : x.1 = y.1
        · have hymem : y ∈ (y :: rest).filter (fun r => decide (r.1 = d)) :=
            List.mem_filter.mpr ⟨List.mem_cons_self _ _, by
              simp only [decide_eq_true_eq]
              rw [← hxy]
              exact hxd⟩
          have hfy : (y :: rest).filter (fun r => decide (r.1 = d)) ≠ [] := by
            intro h0
            rw [h0] at hymem
            exact absurd hymem (List.not_mem_nil y)
          have hlast : (x :: (y :: rest).filter (fun r => decide (r.1 = d))).getLastD
              (0, 0) = ((y :: rest).filter (fun r => decide (r.1 = d))).getLastD
              (0, 0) := by
            rw [List.getLastD_cons]
            exact getLastD_irrel _ _ _ hfy
          rw [hlast]
          simp only [dedupKeepLast]
          rw [if_pos hxy]
          exact ih hp' d hfy
        · have hfy : (y :: rest).filter (fun r => decide (r.1 = d)) = [] := by
            apply List.filter_eq_nil_iff.mpr
            intro z hz
            have hzy : y.1 ≤ z.1 := by
              rcases List.mem_cons.mp hz with rfl | hzr
              · exact le_refl _
              · exact (List.pairwise_cons.mp hp').1 z hzr
            have hxy' : x.1 < y.1 :=
              lt_of_le_of_ne (hx y (List.mem_cons_self _ _)) hxy
            simp only [decide_eq_true_eq]
            intro hzd
            exact absurd (hxd.trans hzd.symm)
              (ne_of_lt (lt_of_lt_of_le hxy' hzy))
          rw [hfy]
          simp only [dedupKeepLast]
          rw [if_neg hxy]
          exact List.mem_cons_self _ _
    · rw [List.filter_cons_of_neg (by simpa using hxd)] at hne ⊢
      have hmem := ih hp' d hne
      cases l' with
      | nil => simp at hne
      | cons y rest =>
        simp only [dedupKeepLast]
        split
        · exact hmem
        · exact List.mem_cons_of_mem x hmem

/-- Running the knot-building loop over a key-sorted row list, starting
from an accumulator whose last knot is `(dlast, rlast)`, appends exactly
the run-deduplicated rows. -/
theorem loadStep_run (v : Date) :
    ∀ (l : List (Date × ℚ)) (dlast : Date) (rlast : ℚ) (ts0 rs0 : List ℚ),
      v < dlast → (∀ p ∈ l, dlast ≤ p.1) →
      l.Pairwise (fun a b => a.1 ≤ b.1) →
      l.foldl (loadStep v) (ts0 ++ [year_fraction v dlast], rs0 ++ [rlast]) =
        (ts0 ++ (dedupKeepLast ((dlast, rlast) :: l)).map
            (fun p => year_fraction v p.1),
         rs0 ++ (dedupKeepLast ((dlast, rlast) :: l)).map (·.2)) := by
  intro l
  induction l with
  | nil =>
    intro dlast rlast ts0 rs0 _ _ _
    simp [dedupKeepLast]
  | cons p l' ih =>
    intro dlast rlast ts0 rs0 hv hge hpw
    have hvp : v < p.1 := lt_of_lt_of_le hv (hge p (List.mem_cons_self _ _))
    rw [List.foldl_cons]
    have hstep : loadStep v (ts0 ++ [year_fraction v dlast], rs0 ++ [rlast]) p =
        if p.1 = dlast then (ts0 ++ [year_fraction v dlast], rs0 ++ [p.2])
        else ((ts0 ++ [year_fraction v dlast]) ++ [year_fraction v p.1],
          (rs0 ++ [rlast]) ++ [p.2]) := by
      unfold loadStep
      rw [if_neg (not_le.mpr (year_fraction_pos v p.1 hvp))]
      simp only [List.getLastD_concat]
      by_cases hpd : p.1 = dlast
      · rw [if_pos (by rw [hpd, sub_self, abs_zero]; norm_num), if_pos hpd,
          List.dropLast_concat]
      · rw [if_neg (year_fraction_gap v p.1 dlast hpd), if_neg hpd]
    rw [hstep]
    by_cases hpd : p.1 = dlast
    · rw [if_pos hpd,
        show year_fraction v dlast = year_fraction v p.1 from by rw [hpd]]
      have hge' : ∀ q ∈ l', p.1 ≤ q.1 := (List.pairwise_cons.mp hpw).1
      rw [ih p.1 p.2 ts0 rs0 hvp hge' (List.pairwise_cons.mp hpw).2]
      have hded : dedupKeepLast ((dlast, rlast) :: p :: l') =
          dedupKeepLast ((p.1, p.2) :: l') := by
        simp only [dedupKeepLast]
        rw [if_pos hpd.symm, Prod.mk.eta]
      rw [hded]
    · rw [if_neg hpd]
      have hge' : ∀ q ∈ l', p.1 ≤ q.1 := (List.pairwise_cons.mp hpw).1
      rw [ih p.1 p.2 (ts0 ++ [year_fraction v dlast]) (rs0 ++ [rlast]) hvp hge'
        (List.pairwise_cons.mp hpw).2]
      have hded : dedupKeepLast ((dlast, rlast) :: p :: l') =
          (dlast, rlast) :: dedupKeepLast ((p.1, p.2) :: l') := by
        simp only [dedupKeepLast]
        rw [if_neg (fun hc => hpd hc.symm), Prod.mk.eta]
      rw [hded]
      simp only [List.map_cons]
      simp only [← List.append_cons]

/-- Stability of the row sort: the rows carrying a given date appear in
the sorted list exactly as they appear in the input. -/
theorem mergeSort_filter_key (l : List (Date × ℚ)) (d : Date) :
    (l.mergeSort (fun a b => decide (a.1 ≤ b.1))).filter
        (fun r => decide (r.1 = d)) =
      l.filter (fun r => decide (r.1 = d)) := by
  have hF1pw : (l.filter (fun r => decide (r.1 = d))).Pairwise
      (fun a b => decide (a.1 ≤ b.1) = true) := by
    have hall : ∀ a ∈ l.filter (fun r => decide (r.1 = d)), a.1 = d := by
      intro a ha
      simpa using (List.mem_filter.mp ha).2
    apply List.pairwise_iff_getElem.mpr
    intro i j hi hj _
    simp only [decide_eq_true_eq]
    rw [hall _ (List.getElem_mem hi), hall _ (List.getElem_mem hj)]
  have hsub : (l.filter (fun r => decide (r.1 = d))).Sublist
      (l.mergeSort (fun a b => decide (a.1 ≤ b.1))) :=
    List.sublist_mergeSort keyle_trans keyle_total hF1pw (List.filter_sublist l)
  have hself : (l.filter (fun r => decide (r.1 = d))).filter
      (fun r => decide (r.1 = d)) = l.filter (fun r => decide (r.1 = d)) := by
    apply List.filter_eq_self.mpr
    intro a ha
    exact (List.mem_filter.mp ha).2
  have hsub2 : (l.filter (fun r => decide (r.1 = d))).Sublist
      ((l.mergeSort (fun a b => decide (a.1 ≤ b.1))).filter
        (fun r => decide (r.1 = d))) := by
    rw [← hself]
    exact hsub.filter _
  have hperm : ((l.mergeSort (fun a b => decide (a.1 ≤ b.1))).filter
      (fun r => decide (r.1 = d))).Perm (l.filter (fun r => decide (r.1 = d))) :=
    (List.mergeSort_perm l _).filter _
  exact (hsub2.eq_of_length hperm.length_eq.symm).symm

/-- The last surviving row with a given date carries that date. -/
theorem filter_getLastD_key (l : List (Date × ℚ)) (d : Date)
    (h : l.filter (fun r => decide (r.1 = d)) ≠ []) :
    ((l.filter (fun r => decide (r.1 = d))).getLastD (0, 0)).1 = d := by
  have hmem : (l.filter (fun r => decide (r.1 = d))).getLastD (0, 0) ∈
      l.filter (fun r => decide (r.1 = d)) := by
    rw [List.getLastD_eq_getLast?, List.getLast?_eq_getLast _ h]
    exact List.getLast_mem h
  simpa using (List.mem_filter.mp hmem).2

end Hazard

/-- C4: the hazard loader discards rows on/before the valuation date and
fails with `EmptyCurveError` exactly when none remain; on success the
knot state has strictly increasing times, a synthetic `t = 0` first knot
carrying the first surviving rate, knots that are the run-deduplicated
sorted rows (so two rows with the same date keep the later-loaded rate),
and always at least two knots. -/
theorem load_from_csv_spec (valuation_date : Date) (rows : List (Date × ℚ)) :
    (Hazard.load_from_csv valuation_date rows = .error .EmptyCurveError ↔
      ∀ p ∈ rows, p.1 ≤ valuation_date) ∧
    (∀ c : Hazard.HazardRateCurve,
      Hazard.load_from_csv valuation_date rows = .ok c →
      c.times.Chain' (· < ·) ∧
      c.times = 0 :: (Hazard.dedupKeepLast ((rows.filter fun r =>
          decide (valuation_date < r.1)).mergeSort fun a b =>
            decide (a.1 ≤ b.1))).map
        (fun p => Hazard.year_fraction valuation_date p.1) ∧
      c.rates = (((rows.filter fun r => decide (valuation_date < r.1)).mergeSort
          fun a b => decide (a.1 ≤ b.1)).headD (0, 0)).2 ::
        (Hazard.dedupKeepLast ((rows.filter fun r =>
          decide (valuation_date < r.1)).mergeSort fun a b =>
            decide (a.1 ≤ b.1))).map (·.2) ∧
      c.times.headD 0 = 0 ∧ 2 ≤ c.times.length ∧
      c.rates.length = c.times.length ∧
      (∀ d ∈ (rows.filter fun r => decide (valuation_date < r.1)).map (·.1),
        (Hazard.year_fraction valuation_date d,
          (((rows.filter fun r => decide (valuation_date < r.1)).filter
            (fun r => decide (r.1 = d))).getLastD (0, 0)).2) ∈
          (c.times.drop 1).zip (c.rates.drop 1))) := by
  constructor
  · unfold Hazard.load_from_csv
    by_cases hk : (rows.filter fun r => decide (valuation_date < r.1)) = []
    · rw [if_pos hk]
      simp only [true_iff]
      intro p hp
      by_contra hgt
      have : p ∈ rows.filter fun r => decide (valuation_date < r.1) :=
        List.mem_filter.mpr ⟨hp, by simpa using lt_of_not_le hgt⟩
      rw [hk] at this
      exact absurd this (List.not_mem_nil p)
    · rw [if_neg hk]
      constructor
      · intro h
        exact absurd h (by simp)
      · intro hall
        exfalso
        apply hk
        apply List.filter_eq_nil_iff.mpr
        intro p hp
        simpa using not_lt.mpr (hall p hp)
  · intro c hok
    simp only [Hazard.load_from_csv] at hok
    by_cases hk : (rows.filter fun r => decide (valuation_date < r.1)) = []
    · rw [if_pos hk] at hok
      exact absurd hok (by simp)
    · rw [if_neg hk] at hok
      obtain ⟨s0, rest, hs0⟩ : ∃ s0 rest,
          (rows.filter fun r => decide (valuation_date < r.1)).mergeSort
            (fun a b => decide (a.1 ≤ b.1)) = s0 :: rest := by
        cases h : (rows.filter fun r => decide (valuation_date < r.1)).mergeSort
            (fun a b => decide (a.1 ≤ b.1)) with
        | nil =>
          have hlen := congrArg List.length h
          rw [(List.mergeSort_perm _ _).length_eq] at hlen
          simp only [List.length_nil] at hlen
          exact absurd (List.length_eq_zero.mp hlen) hk
        | cons a t => exact ⟨a, t, rfl⟩
      have hspw : (s0 :: rest).Pairwise (fun a b : Date × ℚ => a.1 ≤ b.1) := by
        rw [← hs0]
        exact (@List.sorted_mergeSort _ (fun a b => decide (a.1 ≤ b.1))
          Hazard.keyle_trans Hazard.keyle_total
          (rows.filter fun r => decide (valuation_date < r.1))).imp
          (fun h => by simpa using h)
      have hsgt : ∀ p ∈ s0 :: rest, valuation_date < p.1 := by
        intro p hp
        rw [← hs0] at hp
        have hp2 : p ∈ rows.filter fun r => decide (valuation_date < r.1) :=
          ((List.mergeSort_perm _ _).mem_iff).mp hp
        simpa using (List.mem_filter.mp hp2).2
      have hv0 : valuation_date < s0.1 := hsgt s0 (List.mem_cons_self _ _)
      have hge : ∀ q ∈ rest, s0.1 ≤ q.1 := (List.pairwise_cons.mp hspw).1
      have hrpw : rest.Pairwise (fun a b : Date × ℚ => a.1 ≤ b.1) :=
        (List.pairwise_cons.mp hspw).2
      have hstep0 : Hazard.loadStep valuation_date ([0], [s0.2]) s0 =
          ([0] ++ [Hazard.year_fraction valuation_date s0.1], [s0.2] ++ [s0.2]) := by
        unfold Hazard.loadStep
        rw [if_neg (not_le.mpr (Hazard.year_fraction_pos _ _ hv0))]
        have hgl : ([0] : List ℚ).getLastD 0 = 0 := rfl
        rw [hgl, sub_zero]
        have ht1 : 1 / 365 ≤ Hazard.year_fraction valuation_date s0.1 := by
          unfold Hazard.year_fraction
          rw [div_le_div_iff_of_pos_right (by norm_num : (0 : ℚ) < 365)]
          have h1' : (1 : ℤ) ≤ s0.1 - valuation_date := by linarith [hv0]
          exact_mod_cast h1'
        rw [if_neg (by
          rw [abs_of_pos (Hazard.year_fraction_pos _ _ hv0)]
          exact not_lt.mpr (le_trans (by norm_num) ht1))]
      have hfold : (s0 :: rest).foldl (Hazard.loadStep valuation_date)
          ([0], [s0.2]) =
          (0 :: (Hazard.dedupKeepLast (s0 :: rest)).map
              (fun p => Hazard.year_fraction valuation_date p.1),
           s0.2 :: (Hazard.dedupKeepLast (s0 :: rest)).map (·.2)) := by
        rw [List.foldl_cons, hstep0,
          Hazard.loadStep_run valuation_date rest s0.1 s0.2 [0] [s0.2] hv0 hge
            hrpw, Prod.mk.eta]
        simp only [List.singleton_append]
      rw [hs0] at hok
      simp only [List.headD_cons] at hok
      rw [hfold] at hok
      have hdne := Hazard.dedupKeepLast_ne_nil s0 rest
      have hdpos : 0 < (Hazard.dedupKeepLast (s0 :: rest)).length :=
        List.length_pos.mpr hdne
      rw [if_neg (by
        simp only [List.length_cons, List.length_map]
        omega)] at hok
      simp only [Except.ok.injEq] at hok
      subst hok
      rw [hs0]
      have hsubset : ∀ x ∈ Hazard.dedupKeepLast (s0 :: rest),
          valuation_date < x.1 := fun x hx =>
        hsgt x (Hazard.dedupKeepLast_subset _ x hx)
      refine ⟨?_, rfl, rfl, rfl, ?_, by simp, ?_⟩
      · -- strictly increasing times
        show (0 :: (Hazard.dedupKeepLast (s0 :: rest)).map
          (fun p => Hazard.year_fraction valuation_date p.1)).Chain' (· < ·)
        apply List.chain'_cons'.mpr
        constructor
        · intro y hy
          have hym := List.mem_of_mem_head? hy
          obtain ⟨p, hp, hpy⟩ := List.mem_map.mp hym
          rw [← hpy]
          exact Hazard.year_fraction_pos _ _ (hsubset p hp)
        · rw [List.chain'_map]
          exact (Hazard.dedupKeepLast_chain_keys (s0 :: rest) hspw).imp
            (fun a b h => Hazard.year_fraction_strict_mono valuation_date h)
      · -- at least two knots
        show 2 ≤ (0 :: (Hazard.dedupKeepLast (s0 :: rest)).map
          (fun p => Hazard.year_fraction valuation_date p.1)).length
        simp only [List.length_cons, List.length_map]
        omega
      · -- later-loaded rate wins per date
        intro d hd
        obtain ⟨r, hr, hrd⟩ := List.mem_map.mp hd
        have hfne : (rows.filter fun q => decide (valuation_date < q.1)).filter
            (fun q => decide (q.1 = d)) ≠ [] := by
          intro h0
          have : r ∈ (rows.filter fun q => decide (valuation_date < q.1)).filter
              (fun q => decide (q.1 = d)) :=
            List.mem_filter.mpr ⟨hr, by simpa using hrd⟩
          rw [h0] at this
          exact absurd this (List.not_mem_nil r)
        have hstab := Hazard.mergeSort_filter_key
          (rows.filter fun q => decide (valuation_date < q.1)) d
        rw [hs0] at hstab
        have hfne2 : (s0 :: rest).filter (fun q => decide (q.1 = d)) ≠ [] := by
          rw [hstab]
          exact hfne
        have hmem := Hazard.dedupKeepLast_last_of_run (s0 :: rest) hspw d hfne2
        rw [hstab] at hmem
        have hkey := Hazard.filter_getLastD_key
          (rows.filter fun q => decide (valuation_date < q.1)) d hfne
        simp only [List.drop_succ_cons, List.drop_zero]
        rw [List.zip_map']
        apply List.mem_map.mpr
        refine ⟨((rows.filter fun q => decide (valuation_date < q.1)).filter
          (fun q => decide (q.1 = d))).getLastD (0, 0), hmem, ?_⟩
        rw [hkey]

/-- C4 witness: rows containing a duplicate date, a pre-valuation row and
out-of-order dates; plus the empty-error direction. -/
theorem load_from_csv_spec_witness :
    (Hazard.load_from_csv 0 [(400, 2 / 100), (100, 1 / 100), (100, 3 / 100),
        (-5, 9)] = .error .EmptyCurveError ↔
      ∀ p ∈ [((400 : ℤ), (2 / 100 : ℚ)), (100, 1 / 100), (100, 3 / 100),
        (-5, 9)], p.1 ≤ 0) ∧
    (∀ c : Hazard.HazardRateCurve,
      Hazard.load_from_csv 0 [(400, 2 / 100), (100, 1 / 100), (100, 3 / 100),
        (-5, 9)] = .ok c → c.times.Chain' (· < ·)) := by
  have h := load_from_csv_spec 0 [(400, 2 / 100), (100, 1 / 100),
    (100, 3 / 100), (-5, 9)]
  exact ⟨h.1, fun c hc => (h.2 c hc).1⟩

/-! ## Equivalence of the new and the legacy hazard curve (claim C10) -/

/-- The two bisection loops agree on every input. -/
theorem searchLoop_eq (times : List ℚ) (t : ℚ) :
    ∀ n lo hi, hi - lo ≤ n →
      CdsFinal.searchLoop times t lo hi = Hazard.searchLoop times t lo hi := by
  intro n
  induction n with
  | zero =>
    intro lo hi h
    unfold CdsFinal.searchLoop Hazard.searchLoop
    rw [dif_neg (by omega), dif_neg (by omega)]
  | succ n ih =>
    intro lo hi h
    unfold CdsFinal.searchLoop Hazard.searchLoop
    by_cases h1 : 1 < hi - lo
    · rw [dif_pos h1, dif_pos h1]
      by_cases h2 : times.getD ((lo + hi) / 2) 0 ≤ t
      · rw [if_pos h2, if_pos h2]
        exact ih _ _ (by omega)
      · rw [if_neg h2, if_neg h2]
        exact ih _ _ (by omega)
    · rw [dif_neg h1, dif_neg h1]

/-- The two trapezoid loops agree on every input. -/
theorem trapSum_eq (f : ℚ → ℚ) : ∀ l, CdsFinal.trapSum f l = Hazard.trapSum f l := by
  intro l
  induction l with
  | nil => rfl
  | cons a l ih =>
    cases l with
    | nil => rfl
    | cons b rest =>
      simp only [CdsFinal.trapSum, Hazard.trapSum]
      rw [ih]

/-- The two interpolators agree on every knot state and query time. -/
theorem interp_lambda_eq (v : Date) (times rates : List ℚ) (t : ℚ) :
    CdsFinal.interp_lambda ⟨v, times, rates⟩ t =
      Hazard.interp_lambda ⟨v, times, rates⟩ t := by
  unfold CdsFinal.interp_lambda Hazard.interp_lambda
  simp only
  rw [searchLoop_eq times t (times.length - 1) 0 (times.length - 1) le_rfl]

/-- The two integration grids agree. -/
theorem survGrid_eq (v : Date) (times rates : List ℚ) (T : ℚ) :
    CdsFinal.survGrid ⟨v, times, rates⟩ T = Hazard.survGrid ⟨v, times, rates⟩ T := rfl

/-- The two trapezoidal integrals agree. -/
theorem survIntegral_eq (v : Date) (times rates : List ℚ) (T : ℚ) :
    CdsFinal.survIntegral ⟨v, times, rates⟩ T =
      Hazard.survIntegral ⟨v, times, rates⟩ T := by
  unfold CdsFinal.survIntegral Hazard.survIntegral
  rw [survGrid_eq,
    show CdsFinal.interp_lambda ⟨v, times, rates⟩ =
        Hazard.interp_lambda ⟨v, times, rates⟩ from
      funext (interp_lambda_eq v times rates)]
  exact trapSum_eq _ _

/-- C10: for every valuation date, knot state and end date the legacy
`survival_probability` of `src/old/credit/cds_final/hazard_curve.py` and
the new `survival_probability` of `src/new/hazard/hazard_curve.py`
return the same value. -/
theorem survival_probability_equiv (v : Date) (times rates : List ℚ)
    (end_date : Date) :
    CdsFinal.survival_probability ⟨v, times, rates⟩ end_date =
      Hazard.survival_probability ⟨v, times, rates⟩ end_date := by
  unfold CdsFinal.survival_probability Hazard.survival_probability
  simp only [CdsFinal.year_fraction, Hazard.year_fraction]
  rw [survIntegral_eq]

/-! ## Premium-leg engine theorems (claims C2 and C7) -/

namespace Pricing

/-- `accrualTerms` preserves length. -/
theorem accrualTerms_length (l : List ℝ) : ∀ prev, (accrualTerms prev l).length = l.length := by
  induction l with
  | nil => intro prev; rfl
  | cons s rest ih => intro prev; simp [accrualTerms, ih]

/-- Entry `i` of `accrualTerms`: half the drop from the previous survival
(the seed for entry 0) to the current survival. -/
theorem accrualTerms_getD (l : List ℝ) : ∀ (prev : ℝ) (i : ℕ), i < l.length →
    (accrualTerms prev l).getD i 0 =
      1 / 2 * ((if i = 0 then prev else l.getD (i - 1) 0) - l.getD i 0) := by
  induction l with
  | nil =>
    intro prev i hi
    exact absurd hi (by simp)
  | cons s rest ih =>
    intro prev i hi
    cases i with
    | zero => simp [accrualTerms]
    | succ j =>
      simp only [accrualTerms, List.getD_cons_succ]
      have hj : j < rest.length := by simpa using hi
      have hswap : (if j = 0 then s else rest.getD (j - 1) 0) = (s :: rest).getD j 0 := by
        cases j with
        | zero => simp
        | succ kk => simp [List.getD_cons_succ]
      rw [ih s j hj, hswap]
      simp

/-- Entry `i` of the vectorised `pv` column. -/
theorem pvCol_getD (s : List ℝ) : ∀ (cf d a ad : List ℝ) (i : ℕ), i < s.length →
    s.length = cf.length → cf.length = d.length → d.length = a.length →
    a.length = ad.length →
    (pvCol s cf d a ad).getD i 0 =
      s.getD i 0 * cf.getD i 0 * d.getD i 0 +
        a.getD i 0 * ad.getD i 0 * cf.getD i 0 := by
  induction s with
  | nil =>
    intro cf d a ad i hi _ _ _ _
    exact absurd hi (by simp)
  | cons x ss ih =>
    intro cf d a ad i hi h1 h2 h3 h4
    rcases cf with _ | ⟨y, cfs⟩
    · simp at h1
    rcases d with _ | ⟨z, ds⟩
    · simp at h2
    rcases a with _ | ⟨w, tas⟩
    · simp at h3
    rcases ad with _ | ⟨u, ads⟩
    · simp at h4
    cases i with
    | zero => simp [pvCol]
    | succ j =>
      simp only [pvCol, List.getD_cons_succ]
      exact ih cfs ds tas ads j (by simpa using hi) (by simpa using h1)
        (by simpa using h2) (by simpa using h3) (by simpa using h4)

end Pricing

/-- C7: the premium-leg engine keeps exactly the periods whose pay date
is strictly after the valuation date (its `pay_date` column is the
filtered pay dates), and when the schedule is empty or every period pays
on/before the valuation date it returns the empty DataFrame. -/
theorem build_cds_premium_df_empty_spec (schedule : List (Date × Date × ℚ))
    (survF : Date → ℝ) (dfF : Date → Date → ℝ) (val_date : Date)
    (nominal rate : ℝ) :
    (Pricing.build_cds_premium_df schedule survF dfF val_date nominal rate).pay_date =
      (schedule.filter fun r => decide (val_date < r.2.1)).map (·.2.1) ∧
    ((∀ r ∈ schedule, r.2.1 ≤ val_date) →
      Pricing.build_cds_premium_df schedule survF dfF val_date nominal rate =
        Pricing.emptyDF) := by
  constructor
  · by_cases h : schedule = []
    · subst h
      simp [Pricing.build_cds_premium_df, Pricing.emptyDF]
    · unfold Pricing.build_cds_premium_df
      rw [if_neg h]
      by_cases hk : (schedule.filter fun r => decide (val_date < r.2.1)) = []
      · rw [if_pos hk, hk]
        rfl
      · rw [if_neg hk]
  · intro hall
    have hf : (schedule.filter fun r => decide (val_date < r.2.1)) = [] := by
      rw [List.filter_eq_nil_iff]
      intro r hr
      simpa using not_lt.mpr (hall r hr)
    unfold Pricing.build_cds_premium_df
    rw [hf]
    simp

/-- C7 witness: a schedule whose only period pays on the valuation date. -/
theorem build_cds_premium_df_empty_spec_witness :
    Pricing.build_cds_premium_df [((0 : ℤ), (5 : ℤ), (1 / 4 : ℚ))] (fun _ => 1)
        (fun _ _ => 1) 5 1000000 (1 / 100) = Pricing.emptyDF :=
  (build_cds_premium_df_empty_spec [((0 : ℤ), (5 : ℤ), (1 / 4 : ℚ))] (fun _ => 1)
    (fun _ _ => 1) 5 1000000 (1 / 100)).2 (by decide)

/-- C2: each row of the premium-leg table satisfies the survival,
cashflow, accrual-probability and PV formulas, with the survival
normalised by `denom = max(S(valuation_date + 1 day), 1e-16)` and the
previous survival of the first kept row equal to `1.0`. -/
theorem build_cds_premium_df_row_spec (schedule : List (Date × Date × ℚ))
    (survF : Date → ℝ) (dfF : Date → Date → ℝ) (val_date : Date)
    (nominal rate : ℝ) (hne : schedule ≠ []) :
    ∀ i, i < (Pricing.build_cds_premium_df schedule survF dfF val_date nominal
        rate).pay_date.length →
      (Pricing.build_cds_premium_df schedule survF dfF val_date nominal
          rate).survival.getD i 0 =
        survF ((Pricing.build_cds_premium_df schedule survF dfF val_date nominal
            rate).pay_date.getD i 0 - 1) /
          max (survF (val_date + 1)) (1 / 10 ^ 16) ∧
      (Pricing.build_cds_premium_df schedule survF dfF val_date nominal
          rate).cashflow.getD i 0 =
        nominal * rate *
          (((Pricing.build_cds_premium_df schedule survF dfF val_date nominal
            rate).year_fraction.getD i 0 : ℚ) : ℝ) ∧
      (Pricing.build_cds_premium_df schedule survF dfF val_date nominal
          rate).accrual_prob_term.getD i 0 =
        1 / 2 *
          ((if i = 0 then 1 else
            (Pricing.build_cds_premium_df schedule survF dfF val_date nominal
              rate).survival.getD (i - 1) 0) -
            (Pricing.build_cds_premium_df schedule survF dfF val_date nominal
              rate).survival.getD i 0) ∧
      (Pricing.build_cds_premium_df schedule survF dfF val_date nominal
          rate).pv.getD i 0 =
        (Pricing.build_cds_premium_df schedule survF dfF val_date nominal
            rate).survival.getD i 0 *
          (Pricing.build_cds_premium_df schedule survF dfF val_date nominal
            rate).cashflow.getD i 0 *
          (Pricing.build_cds_premium_df schedule survF dfF val_date nominal
            rate).discount_factor.getD i 0 +
        (Pricing.build_cds_premium_df schedule survF dfF val_date nominal
            rate).accrual_prob_term.getD i 0 *
          (Pricing.build_cds_premium_df schedule survF dfF val_date nominal
            rate).accrual_df.getD i 0 *
          (Pricing.build_cds_premium_df schedule survF dfF val_date nominal
            rate).cashflow.getD i 0 := by
  intro i hi
  unfold Pricing.build_cds_premium_df at hi ⊢
  rw [if_neg hne] at hi ⊢
  by_cases hk : (schedule.filter fun r => decide (val_date < r.2.1)) = []
  · rw [if_pos hk] at hi
    exact absurd hi (by simp [Pricing.emptyDF])
  · rw [if_neg hk] at hi ⊢
    set kept := schedule.filter fun r => decide (val_date < r.2.1) with hkept
    set denom := max (survF (val_date + 1)) ((1 : ℝ) / 10 ^ 16) with hdenom
    simp only at hi ⊢
    have hn : kept.length ≠ 0 := fun h0 => hk (List.length_eq_zero.mp h0)
    have hiK : i < kept.length := by simpa using hi
    have hsl : (kept.map fun r => survF (r.2.1 - 1) / denom).length = kept.length := by
      simp
    have hgetPay : (kept.map fun r : Date × Date × ℚ => r.2.1).getD i 0 =
        (kept[i]).2.1 := by
      rw [List.getD_eq_getElem _ _ (by simpa using hiK), List.getElem_map]
    have hgetSurv : ∀ j (hj : j < kept.length),
        ((kept.map fun r : Date × Date × ℚ => r.2.1).map fun pay =>
          survF (pay - 1) / denom).getD j 0 = survF ((kept[j]).2.1 - 1) / denom := by
      intro j hj
      rw [List.getD_eq_getElem _ _ (by simpa using hj), List.getElem_map, List.getElem_map]
    refine ⟨?_, ?_, ?_, ?_⟩
    · rw [hgetSurv i hiK, hgetPay]
    · rw [List.getD_eq_getElem _ _ (by simpa using hiK), List.getElem_map,
        List.getD_eq_getElem _ _ (by simpa using hiK)]
    · have hlen2 : i < ((kept.map fun r : Date × Date × ℚ => r.2.1).map fun pay =>
          survF (pay - 1) / denom).length := by
        simpa using hiK
      rw [Pricing.accrualTerms_getD _ 1 i hlen2]
    · have h0 : i < ((kept.map fun r : Date × Date × ℚ => r.2.1).map fun pay =>
          survF (pay - 1) / denom).length := by
        simpa using hiK
      have h1 : ((kept.map fun r : Date × Date × ℚ => r.2.1).map fun pay =>
          survF (pay - 1) / denom).length =
          ((kept.map fun r : Date × Date × ℚ => r.2.2).map fun yf : ℚ =>
            nominal * rate * (yf : ℝ)).length := by
        simp
      have h2 : ((kept.map fun r : Date × Date × ℚ => r.2.2).map fun yf : ℚ =>
          nominal * rate * (yf : ℝ)).length =
          ((kept.map fun r : Date × Date × ℚ => r.2.1).map fun pay =>
            dfF val_date pay).length := by
        simp
      have h3 : ((kept.map fun r : Date × Date × ℚ => r.2.1).map fun pay =>
          dfF val_date pay).length =
          (Pricing.accrualTerms 1 ((kept.map fun r : Date × Date × ℚ => r.2.1).map
            fun pay => survF (pay - 1) / denom)).length := by
        simp [Pricing.accrualTerms_length]
      have h4 : (Pricing.accrualTerms 1 ((kept.map fun r : Date × Date × ℚ =>
          r.2.1).map fun pay => survF (pay - 1) / denom)).length =
          (((val_date :: (kept.map fun r : Date × Date × ℚ => r.1).drop 1).zip
            (kept.map fun r : Date × Date × ℚ => r.2.1)).map fun sp =>
              dfF val_date (Pricing.midDate sp.1 sp.2)).length := by
        simp only [Pricing.accrualTerms_length, List.length_map, List.length_zip,
          List.length_cons, List.length_drop]
        omega
      rw [Pricing.pvCol_getD _ _ _ _ _ i h0 h1 h2 h3 h4]

/-- C2 witness: a one-period schedule with constant curve functions. -/
theorem build_cds_premium_df_row_spec_witness :
    (Pricing.build_cds_premium_df [((0 : ℤ), (5 : ℤ), (1 / 4 : ℚ))] (fun _ => 1)
        (fun _ _ => 1) 0 1000000 (1 / 100)).survival.getD 0 0 =
      (fun _ : Date => (1 : ℝ))
          ((Pricing.build_cds_premium_df [((0 : ℤ), (5 : ℤ), (1 / 4 : ℚ))] (fun _ => 1)
            (fun _ _ => 1) 0 1000000 (1 / 100)).pay_date.getD 0 0 - 1) /
        max ((fun _ : Date => (1 : ℝ)) (0 + 1)) (1 / 10 ^ 16) :=
  (build_cds_premium_df_row_spec [((0 : ℤ), (5 : ℤ), (1 / 4 : ℚ))] (fun _ => 1)
    (fun _ _ => 1) 0 1000000 (1 / 100) (by decide) 0 (by decide)).1

/-! ## Discount-curve theorems (claims C3 and C9) -/

namespace Discount

/-- Year fractions over a fixed valuation date respect the date order. -/
theorem year_fraction_le_iff (v a b : Date) :
    year_fraction v a ≤ year_fraction v b ↔ a ≤ b := by
  unfold year_fraction
  rw [div_le_div_iff_of_pos_right (by norm_num : (0 : ℚ) < 365)]
  push_cast
  rw [sub_le_sub_iff_right]
  exact Int.cast_le

end Discount

/-- C3: `discount_factor(d_from, d_to)` returns `1.0` when the dates are
equal; otherwise it fails with `MissingPillarError` when either date is
absent from the pillar set, and when both dates are pillars it returns
`D(d_to)/D(d_from)` with `D(d) = (1 + r(d))^(-t(d))` and
`t(d) = (d - valuation_date).days / 365`. -/
theorem discount_factor_spec (c : Discount.ZeroCurve) (d_from d_to : Date) :
    (d_from = d_to → Discount.discount_factor c d_from d_to = .ok 1) ∧
    (d_from ≠ d_to →
      (Discount.lookupRate c d_from = none ∨ Discount.lookupRate c d_to = none) →
      Discount.discount_factor c d_from d_to = .error .MissingPillarError) ∧
    (∀ rA rB : ℚ, d_from ≠ d_to → Discount.lookupRate c d_from = some rA →
      Discount.lookupRate c d_to = some rB →
      Discount.discount_factor c d_from d_to =
        .ok ((1 + (rB : ℝ)) ^
              (-((Discount.year_fraction c.valuation_date d_to : ℚ) : ℝ)) /
            (1 + (rA : ℝ)) ^
              (-((Discount.year_fraction c.valuation_date d_from : ℚ) : ℝ)))) := by
  refine ⟨fun h => by simp [Discount.discount_factor, h], ?_, ?_⟩
  · intro h hmiss
    unfold Discount.discount_factor
    rw [if_neg h]
    rcases hmiss with hm | hm <;>
      cases hA : Discount.lookupRate c d_from <;>
        cases hB : Discount.lookupRate c d_to <;> simp_all
  · intro rA rB h hA hB
    unfold Discount.discount_factor
    rw [if_neg h, hA, hB]
    rfl

/-- C3 witness: a two-pillar curve evaluated on the three branches. -/
theorem discount_factor_spec_witness :
    Discount.discount_factor ⟨0, [(10, 1 / 20), (20, 1 / 10)]⟩ 10 10 = .ok 1 ∧
    Discount.discount_factor ⟨0, [(10, 1 / 20), (20, 1 / 10)]⟩ 10 30 =
      .error .MissingPillarError ∧
    Discount.discount_factor ⟨0, [(10, 1 / 20), (20, 1 / 10)]⟩ 10 20 =
      .ok ((1 + ((1 / 10 : ℚ) : ℝ)) ^
            (-((Discount.year_fraction 0 20 : ℚ) : ℝ)) /
          (1 + ((1 / 20 : ℚ) : ℝ)) ^
            (-((Discount.year_fraction 0 10 : ℚ) : ℝ))) := by
  refine ⟨(discount_factor_spec ⟨0, [(10, 1 / 20), (20, 1 / 10)]⟩ 10 10).1 rfl, ?_, ?_⟩
  · exact (discount_factor_spec ⟨0, [(10, 1 / 20), (20, 1 / 10)]⟩ 10 30).2.1
      (by decide) (Or.inr (by decide))
  · exact (discount_factor_spec ⟨0, [(10, 1 / 20), (20, 1 / 10)]⟩ 10 20).2.2
      (1 / 20) (1 / 10) (by decide) rfl rfl

/-- C9: given that both query dates are pillars, the forward-rate queries
fail with `InvalidIntervalError` exactly when `d_end` is not strictly
after `d_start`; otherwise they return `-ln(DF)/Δ` and `DF^(-1/Δ) - 1`
respectively, with `DF = discount_factor(d_start, d_end)` and
`Δ = t_end - t_start`. -/
theorem forward_rate_spec (c : Discount.ZeroCurve) (d_start d_end : Date)
    (rA rB : ℚ) (hA : Discount.lookupRate c d_start = some rA)
    (hB : Discount.lookupRate c d_end = some rB) :
    (Discount.forward_rate_cont c d_start d_end = .error .InvalidIntervalError ↔
      ¬ d_start < d_end) ∧
    (Discount.forward_rate_naca c d_start d_end = .error .InvalidIntervalError ↔
      ¬ d_start < d_end) ∧
    (d_start < d_end → ∀ DF : ℝ,
      Discount.discount_factor c d_start d_end = .ok DF →
      Discount.forward_rate_cont c d_start d_end =
        .ok (-Real.log DF /
          ((Discount.year_fraction c.valuation_date d_end -
            Discount.year_fraction c.valuation_date d_start : ℚ) : ℝ)) ∧
      Discount.forward_rate_naca c d_start d_end =
        .ok (DF ^
            (-1 / ((Discount.year_fraction c.valuation_date d_end -
              Discount.year_fraction c.valuation_date d_start : ℚ) : ℝ)) - 1)) := by
  have hiff : d_start < d_end ↔
      ¬ (Discount.year_fraction c.valuation_date d_end ≤
         Discount.year_fraction c.valuation_date d_start) := by
    rw [Discount.year_fraction_le_iff]
    exact lt_iff_not_le
  by_cases ht : Discount.year_fraction c.valuation_date d_end ≤
      Discount.year_fraction c.valuation_date d_start
  · have hc : Discount.forward_rate_cont c d_start d_end =
        .error .InvalidIntervalError := by
      unfold Discount.forward_rate_cont
      rw [hA, hB]
      simp only [if_pos ht]
    have hn : Discount.forward_rate_naca c d_start d_end =
        .error .InvalidIntervalError := by
      unfold Discount.forward_rate_naca
      rw [hA, hB]
      simp only [if_pos ht]
    refine ⟨by simp [hc, hiff, ht], by simp [hn, hiff, ht], ?_⟩
    intro hlt
    exact absurd ht (hiff.mp hlt)
  · have hne : d_start ≠ d_end := fun heq => ht (heq ▸ le_refl _)
    obtain ⟨DF0, hDF0⟩ : ∃ DF, Discount.discount_factor c d_start d_end = .ok DF := by
      unfold Discount.discount_factor
      rw [if_neg hne, hA, hB]
      exact ⟨_, rfl⟩
    have hc : Discount.forward_rate_cont c d_start d_end =
        .ok (-Real.log DF0 /
          ((Discount.year_fraction c.valuation_date d_end -
            Discount.year_fraction c.valuation_date d_start : ℚ) : ℝ)) := by
      unfold Discount.forward_rate_cont
      rw [hA, hB]
      simp only [if_neg ht, hDF0, Except.bind]
    have hn : Discount.forward_rate_naca c d_start d_end =
        .ok (DF0 ^
            (-1 / ((Discount.year_fraction c.valuation_date d_end -
              Discount.year_fraction c.valuation_date d_start : ℚ) : ℝ)) - 1) := by
      unfold Discount.forward_rate_naca
      rw [hA, hB]
      simp only [if_neg ht, hDF0, Except.bind]
    refine ⟨by simp [hc, hiff.mpr ht], by simp [hn, hiff.mpr ht], ?_⟩
    intro _ DF hDF
    rw [hDF0] at hDF
    cases hDF
    exact ⟨hc, hn⟩

/-! ## Cashflow-schedule theorems (claims C5 and C6) -/

namespace Cashflow

/-- Length of the generated schedule. -/
theorem generate_length (boundaries : List Date) (adjust : Date → Date) :
    (generate boundaries adjust).length =
      if boundaries.length < 2 then 0 else boundaries.length - 1 := by
  unfold generate
  split
  · rfl
  · rename_i h
    simp only [List.length_map, List.enum_length, List.length_zip, List.length_cons,
      List.length_dropLast, List.length_drop]
    omega

/-- Closed form of each generated row: the pay date is the adjusted
boundary, the accrual start is the previous pay date (the true start for
row 0), and the year fraction counts the days with a `+1` on the final
row. -/
theorem generate_getElem (boundaries : List Date) (adjust : Date → Date) (i : ℕ)
    (h2 : 2 ≤ boundaries.length) (hi : i < boundaries.length - 1) :
    (generate boundaries adjust).getD i (0, 0, 0) =
      ((if i = 0 then boundaries.headD 0 else adjust (boundaries.getD i 0)),
        adjust (boundaries.getD (i + 1) 0),
        ((adjust (boundaries.getD (i + 1) 0) -
          (if i = 0 then boundaries.headD 0 else adjust (boundaries.getD i 0)) +
          if i = boundaries.length - 2 then 1 else 0 : ℤ) : ℚ) / 365) := by
  obtain ⟨b0, btail, rfl⟩ : ∃ b0 btail, boundaries = b0 :: btail := by
    cases boundaries with
    | nil => simp at h2
    | cons x xs => exact ⟨x, xs, rfl⟩
  have hbl : i < btail.length := by
    simp only [List.length_cons] at hi
    omega
  have hpd : (btail.map adjust).length = btail.length := by simp
  have hstarts : (b0 :: (btail.map adjust).dropLast).length = btail.length := by
    simp only [List.length_cons] at h2
    simp only [List.length_cons, List.length_dropLast, List.length_map]
    omega
  unfold generate
  rw [if_neg (by simp only [List.length_cons]; omega)]
  simp only [List.drop_succ_cons, List.drop_zero, List.headD_cons]
  rw [List.getD_eq_getElem _ _ (by
    simp only [List.length_map, List.enum_length, List.length_zip, hpd, hstarts, min_self]
    exact hbl)]
  rw [List.getElem_map, List.getElem_enum, List.getElem_zip]
  have hb1 : ∀ hq : i < (btail.map adjust).length,
      (btail.map adjust)[i] = adjust ((b0 :: btail).getD (i + 1) 0) := by
    intro hq
    rw [List.getElem_map, List.getD_cons_succ, List.getD_eq_getElem _ _ hbl]
  have hs : ∀ hq : i < (b0 :: (btail.map adjust).dropLast).length,
      (b0 :: (btail.map adjust).dropLast)[i] =
        (if i = 0 then b0 else adjust ((b0 :: btail).getD i 0)) := by
    intro hq
    cases i with
    | zero => simp
    | succ j =>
      rw [List.getElem_cons_succ, List.getElem_dropLast, List.getElem_map,
        if_neg (Nat.succ_ne_zero j), List.getD_cons_succ,
        List.getD_eq_getElem _ _ (by omega : j < btail.length)]
  simp only [hb1, hs, hpd]
  rw [show (b0 :: btail).length - 2 = btail.length - 1 by
    simp only [List.length_cons]; omega]

end Cashflow

/-- C6: the schedule generator returns an empty sequence exactly when the
unadjusted boundary schedule has fewer than two boundaries; otherwise it
produces one period per consecutive boundary pair, each period's pay date
is the calendar-adjusted boundary, period 0 starts at the true start
date, and every later period starts at the previous period's pay date. -/
theorem generate_spec (boundaries : List Date) (adjust : Date → Date)
    (start_date : Date) (hhead : boundaries.headD 0 = start_date) :
    (Cashflow.generate boundaries adjust = [] ↔ boundaries.length < 2) ∧
    (2 ≤ boundaries.length →
      (Cashflow.generate boundaries adjust).length = boundaries.length - 1) ∧
    (∀ i, i < (Cashflow.generate boundaries adjust).length →
      ((Cashflow.generate boundaries adjust).getD i (0, 0, 0)).2.1 =
        adjust (boundaries.getD (i + 1) 0)) ∧
    (2 ≤ boundaries.length →
      ((Cashflow.generate boundaries adjust).getD 0 (0, 0, 0)).1 = start_date) ∧
    (∀ i, i + 1 < (Cashflow.generate boundaries adjust).length →
      ((Cashflow.generate boundaries adjust).getD (i + 1) (0, 0, 0)).1 =
        ((Cashflow.generate boundaries adjust).getD i (0, 0, 0)).2.1) := by
  have hlen := Cashflow.generate_length boundaries adjust
  refine ⟨?_, ?_, ?_, ?_, ?_⟩
  · rw [← List.length_eq_zero, hlen]
    split <;> omega
  · intro h2
    rw [hlen, if_neg (by omega)]
  · intro i hi
    have h2 : 2 ≤ boundaries.length := by
      by_contra h
      rw [hlen, if_pos (by omega)] at hi
      omega
    have hi' : i < boundaries.length - 1 := by
      rw [hlen, if_neg (by omega)] at hi
      omega
    rw [Cashflow.generate_getElem boundaries adjust i h2 hi']
  · intro h2
    have h0 : 0 < boundaries.length - 1 := by omega
    rw [Cashflow.generate_getElem boundaries adjust 0 h2 h0]
    simpa using hhead
  · intro i hi
    have h2 : 2 ≤ boundaries.length := by
      by_contra h
      rw [hlen, if_pos (by omega)] at hi
      omega
    have hi' : i + 1 < boundaries.length - 1 := by
      rw [hlen, if_neg (by omega)] at hi
      omega
    rw [Cashflow.generate_getElem boundaries adjust (i + 1) h2 hi',
      Cashflow.generate_getElem boundaries adjust i h2 (by omega)]
    simp

/-- C6 witness: five boundaries, shifting adjustment. -/
theorem generate_spec_witness :
    (Cashflow.generate [0, 90, 181, 273, 365] (fun d => d + 1) = [] ↔
      ([0, 90, 181, 273, 365] : List Date).length < 2) ∧
    (Cashflow.generate [0, 90, 181, 273, 365] (fun d => d + 1)).length = 4 ∧
    ((Cashflow.generate [0, 90, 181, 273, 365] (fun d => d + 1)).getD 0 (0, 0, 0)).1 = 0 ∧
    ((Cashflow.generate [0, 90, 181, 273, 365] (fun d => d + 1)).getD 1 (0, 0, 0)).1 =
      ((Cashflow.generate [0, 90, 181, 273, 365] (fun d => d + 1)).getD 0 (0, 0, 0)).2.1 := by
  have h := generate_spec [0, 90, 181, 273, 365] (fun d => d + 1) 0 rfl
  refine ⟨h.1, h.2.1 (by norm_num), h.2.2.2.1 (by norm_num), ?_⟩
  refine h.2.2.2.2 0 ?_
  rw [Cashflow.generate_length]
  norm_num

/-- C5: in every generated schedule the year fraction of the final period
is `((pay_date - accrual_start).days + 1) / 365` and the year fraction of
every other period is `(pay_date - accrual_start).days / 365`. -/
theorem generate_year_fraction_rule (boundaries : List Date) (adjust : Date → Date) :
    ∀ i, i < (Cashflow.generate boundaries adjust).length →
      (i = (Cashflow.generate boundaries adjust).length - 1 →
        ((Cashflow.generate boundaries adjust).getD i (0, 0, 0)).2.2 =
          ((((Cashflow.generate boundaries adjust).getD i (0, 0, 0)).2.1 -
            ((Cashflow.generate boundaries adjust).getD i (0, 0, 0)).1 + 1 : ℤ) : ℚ)
            / 365) ∧
      (i ≠ (Cashflow.generate boundaries adjust).length - 1 →
        ((Cashflow.generate boundaries adjust).getD i (0, 0, 0)).2.2 =
          ((((Cashflow.generate boundaries adjust).getD i (0, 0, 0)).2.1 -
            ((Cashflow.generate boundaries adjust).getD i (0, 0, 0)).1 : ℤ) : ℚ)
            / 365) := by
  intro i hi
  have hlen := Cashflow.generate_length boundaries adjust
  have h2 : 2 ≤ boundaries.length := by
    by_contra h
    rw [hlen, if_pos (by omega)] at hi
    omega
  have hi' : i < boundaries.length - 1 := by
    rw [hlen, if_neg (by omega)] at hi
    omega
  have hL : (Cashflow.generate boundaries adjust).length - 1 = boundaries.length - 2 := by
    rw [hlen, if_neg (by omega)]
    omega
  rw [Cashflow.generate_getElem boundaries adjust i h2 hi', hL]
  constructor
  · intro hilast
    rw [if_pos hilast]
  · intro hine
    rw [if_neg hine]
    norm_num

/-- C5 witness: four periods with an adjustment that shifts the second
boundary, checking the `+1` on the last period and its absence elsewhere. -/
theorem generate_year_fraction_rule_witness :
    ((Cashflow.generate [0, 90, 181, 273, 365] (fun d => d + 1)).getD 3 (0, 0, 0)).2.2 =
      ((((Cashflow.generate [0, 90, 181, 273, 365] (fun d => d + 1)).getD 3 (0, 0, 0)).2.1 -
        ((Cashflow.generate [0, 90, 181, 273, 365] (fun d => d + 1)).getD 3 (0, 0, 0)).1 +
        1 : ℤ) : ℚ) / 365 ∧
    ((Cashflow.generate [0, 90, 181, 273, 365] (fun d => d + 1)).getD 1 (0, 0, 0)).2.2 =
      ((((Cashflow.generate [0, 90, 181, 273, 365] (fun d => d + 1)).getD 1 (0, 0, 0)).2.1 -
        ((Cashflow.generate [0, 90, 181, 273, 365] (fun d => d + 1)).getD 1 (0, 0, 0)).1 :
        ℤ) : ℚ) / 365 := by
  have hlen : (Cashflow.generate [0, 90, 181, 273, 365] (fun d => d + 1)).length = 4 := by
    rw [Cashflow.generate_length]
    norm_num
  constructor
  · exact ((generate_year_fraction_rule [0, 90, 181, 273, 365] (fun d => d + 1) 3
      (by omega)).1 (by omega))
  · exact ((generate_year_fraction_rule [0, 90, 181, 273, 365] (fun d => d + 1) 1
      (by omega)).2 (by omega))

/-- C9 witness: a two-pillar curve queried in both directions. -/
theorem forward_rate_spec_witness :
    (Discount.forward_rate_cont ⟨0, [(10, 1 / 20), (20, 1 / 10)]⟩ 20 10 =
      .error .InvalidIntervalError) ∧
    (Discount.forward_rate_cont ⟨0, [(10, 1 / 20), (20, 1 / 10)]⟩ 10 20 ≠
      .error .InvalidIntervalError) := by
  have h1 := forward_rate_spec ⟨0, [(10, 1 / 20), (20, 1 / 10)]⟩ 20 10
    (1 / 10) (1 / 20) rfl rfl
  have h2 := forward_rate_spec ⟨0, [(10, 1 / 20), (20, 1 / 10)]⟩ 10 20
    (1 / 20) (1 / 10) rfl rfl
  exact ⟨h1.1.mpr (by decide), fun hc => absurd (h2.1.mp hc) (by decide)⟩

end DerivPricing
